import Mathlib

/-!
Verification of the comparison-and-diff engine of the assert library.

The Go source (assert.go) is shallowly embedded here.  Values that flow
through the engine as dynamically typed data (the Go type "any") are
modelled by the inductive family GoValue; the engine operations
(objectsAreEqual, Diff, needlePosition, Zero, NotZero, formatMsgAndArgs,
extractCompareOptions, Equal, NotEqual) are translated from the source.
The external collaborators that the source calls (the repr rendering
library, the myers/gotextdiff edit-script machinery, and a few Go
standard-library string functions) are modelled from the spec, each with
a doc comment saying so.
-/

namespace Assert

/-- The opening curly brace character, as used in Go renderings. -/
def obr : Char := '\x7b'

/-- The closing curly brace character, as used in Go renderings. -/
def cbr : Char := '\x7d'

/-- Characters allowed in Go identifiers and package-qualified type names:
letters, digits, underscore and the qualification dot. -/
def identChar (c : Char) : Bool :=
  c.isAlphanum || c = '_' || c = '.'

/-- A Go identifier or qualified type name: nonempty, made of identifier
characters, not starting with a digit. -/
def identOK (s : List Char) : Bool :=
  match s with
  | [] => false
  | c :: _ => (!c.isDigit) && s.all identChar

/-- Decimal digit characters of a natural number, most significant first,
computed with structural fuel so that it evaluates inside the kernel. -/
def natChars : Nat → Nat → List Char
  | 0, _ => []
  | fuel + 1, n =>
    if n < 10 then [Nat.digitChar n]
    else natChars fuel (n / 10) ++ [Nat.digitChar (n % 10)]

/-- Decimal rendering of a natural number (Go prints numbers in decimal). -/
def natReprChars (n : Nat) : List Char :=
  natChars (n + 1) n

/-- Decimal rendering of an integer, with a leading minus sign when
negative (Go prints int64 values this way). -/
def intReprChars (n : Int) : List Char :=
  if n < 0 then '-' :: natReprChars n.natAbs else natReprChars n.natAbs

/-- Escape a string body the way Go quoting does for the two characters
that matter for unambiguous re-reading: the double quote and the
backslash.  Other characters are kept as they are; escaping of control
characters is not modelled, which only coarsens the rendering, never
merges two distinct strings. -/
def escapeChars : List Char → List Char
  | [] => []
  | c :: cs =>
    if c = '\"' || c = '\\' then '\\' :: c :: escapeChars cs
    else c :: escapeChars cs

/-- Go-style quoting of a string: escaped body wrapped in double quotes
(models strconv.Quote as used by the source). -/
def quoteChars (cs : List Char) : List Char :=
  '\"' :: escapeChars cs ++ ['\"']

mutual

/-- A dynamically typed Go value as seen by the engine through the "any"
interface: the untyped-nil sentinel, byte sequences (with the nil slice
distinguished from the empty one), text, int64 scalars, named-field
records, generic slices, arrays and mappings.  Nested collections carry
the element/key/value type names that appear in renderings and in
Exclude matching. -/
inductive GoValue where
  | nil : GoValue
  | bytes : Option (List Nat) → GoValue
  | str : String → GoValue
  | int : Int → GoValue
  | strukt : List Char → GoFields → GoValue
  | slice : List Char → Bool → GoList → GoValue
  | array : List Char → GoList → GoValue
  | mapv : List Char → List Char → Bool → GoPairs → GoValue

/-- The named fields of a record value, in declaration order. -/
inductive GoFields where
  | nil : GoFields
  | cons : List Char → GoValue → GoFields → GoFields

/-- The elements of a slice or array value, in order. -/
inductive GoList where
  | nil : GoList
  | cons : GoValue → GoList → GoList

/-- The key/value entries of a mapping, in rendering order. -/
inductive GoPairs where
  | nil : GoPairs
  | cons : GoValue → GoValue → GoPairs → GoPairs

end

/-- Number of elements of a slice or array value. -/
def lenL : GoList → Nat
  | GoList.nil => 0
  | GoList.cons _ rest => lenL rest + 1

/-- Number of entries of a mapping value. -/
def lenP : GoPairs → Nat
  | GoPairs.nil => 0
  | GoPairs.cons _ _ rest => lenP rest + 1

/-- Comma-separated decimal rendering of byte-sequence contents. -/
def natList : List Nat → List Char
  | [] => []
  | [x] => natReprChars x
  | x :: rest => natReprChars x ++ ',' :: ' ' :: natList rest

mutual

/-- Modelled from the spec: the CanonicalForm rendering produced by the
external repr library — a deterministic, indentation-stable,
field-order-stable textual serialization of a value's structure.  The
exact spacing follows Go literal syntax; what the theorems rely on is
that it is injective on well-formed values and that a nil sequence and
an empty one render differently (the spec notes the byte fast path
exists precisely to normalize a zero-value difference that the concrete
representations retain). -/
def render : GoValue → List Char
  | GoValue.nil => "nil".data
  | GoValue.bytes none => "[]byte(nil)".data
  | GoValue.bytes (some d) => "[]byte".data ++ obr :: natList d ++ [cbr]
  | GoValue.str s => quoteChars s.data
  | GoValue.int n => intReprChars n
  | GoValue.strukt name f => name ++ obr :: renderF f ++ [cbr]
  | GoValue.slice ty true _ => "[]".data ++ ty ++ "(nil)".data
  | GoValue.slice ty false es => "[]".data ++ ty ++ obr :: renderL es ++ [cbr]
  | GoValue.array ty es =>
    '[' :: natReprChars (lenL es) ++ ']' :: ty ++ obr :: renderL es ++ [cbr]
  | GoValue.mapv kt vt true _ => "map[".data ++ kt ++ ']' :: vt ++ "(nil)".data
  | GoValue.mapv kt vt false ps =>
    "map[".data ++ kt ++ ']' :: vt ++ obr :: renderP ps ++ [cbr]

/-- Rendering of record fields: name, colon-space, value, comma-space
separated. -/
def renderF : GoFields → List Char
  | GoFields.nil => []
  | GoFields.cons fname v GoFields.nil => fname ++ ':' :: ' ' :: render v
  | GoFields.cons fname v rest =>
    fname ++ ':' :: ' ' :: render v ++ ',' :: ' ' :: renderF rest

/-- Rendering of slice/array elements, comma-space separated. -/
def renderL : GoList → List Char
  | GoList.nil => []
  | GoList.cons v GoList.nil => render v
  | GoList.cons v rest => render v ++ ',' :: ' ' :: renderL rest

/-- Rendering of mapping entries: key, colon-space, value, comma-space
separated. -/
def renderP : GoPairs → List Char
  | GoPairs.nil => []
  | GoPairs.cons k v GoPairs.nil => render k ++ ':' :: ' ' :: render v
  | GoPairs.cons k v rest =>
    render k ++ ':' :: ' ' :: render v ++ ',' :: ' ' :: renderP rest

end

/-- The Go type name a value answers to, used to match Exclude directives
(the spec: Exclude(T) removes every field whose declared type is T; for
the concrete, non-interface fields modelled here the declared and
dynamic types coincide). -/
def typeNameOf : GoValue → List Char
  | GoValue.nil => "<nil>".data
  | GoValue.bytes _ => "[]uint8".data
  | GoValue.str _ => "string".data
  | GoValue.int _ => "int64".data
  | GoValue.strukt name _ => name
  | GoValue.slice ty _ _ => "[]".data ++ ty
  | GoValue.array ty es => '[' :: natReprChars (lenL es) ++ ']' :: ty
  | GoValue.mapv kt vt _ _ => "map[".data ++ kt ++ ']' :: vt

/-- Modelled from the spec: which field values the OmitEmpty directive
treats as empty/default — the absent sentinel, nil sequences and
mappings, empty text and the zero scalar.  Records and arrays are kept. -/
def isEmptyVal : GoValue → Bool
  | GoValue.nil => true
  | GoValue.bytes none => true
  | GoValue.bytes (some _) => false
  | GoValue.str s => s.data.isEmpty
  | GoValue.int n => n == 0
  | GoValue.strukt _ _ => false
  | GoValue.slice _ isNil _ => isNil
  | GoValue.array _ _ => false
  | GoValue.mapv _ _ isNil _ => isNil

mutual

/-- Modelled from the spec: the effect of the renderer directives on the
canonical rendering, expressed as a pre-pass on the value.  Fields whose
type is in the hidden list are removed at any nesting depth; when omit
is set, empty/default fields are removed as well.  Collection elements
and mapping entries are never removed, only their nested record fields
are. -/
def normalize (hidden : List (List Char)) (om : Bool) : GoValue → GoValue
  | GoValue.strukt name f => GoValue.strukt name (normalizeF hidden om f)
  | GoValue.slice ty isNil es => GoValue.slice ty isNil (normalizeL hidden om es)
  | GoValue.array ty es => GoValue.array ty (normalizeL hidden om es)
  | GoValue.mapv kt vt isNil ps => GoValue.mapv kt vt isNil (normalizeP hidden om ps)
  | v => v

/-- Field pre-pass: drop hidden and (when omitting) empty fields,
recurse into the kept ones. -/
def normalizeF (hidden : List (List Char)) (om : Bool) : GoFields → GoFields
  | GoFields.nil => GoFields.nil
  | GoFields.cons fname v rest =>
    if hidden.contains (typeNameOf v) || (om && isEmptyVal v) then
      normalizeF hidden om rest
    else
      GoFields.cons fname (normalize hidden om v) (normalizeF hidden om rest)

/-- Element pre-pass: recurse into every element. -/
def normalizeL (hidden : List (List Char)) (om : Bool) : GoList → GoList
  | GoList.nil => GoList.nil
  | GoList.cons v rest =>
    GoList.cons (normalize hidden om v) (normalizeL hidden om rest)

/-- Entry pre-pass: recurse into every key and value. -/
def normalizeP (hidden : List (List Char)) (om : Bool) : GoPairs → GoPairs
  | GoPairs.nil => GoPairs.nil
  | GoPairs.cons k v rest =>
    GoPairs.cons (normalize hidden om k) (normalize hidden om v)
      (normalizeP hidden om rest)

end

mutual

/-- Well-formedness of a modelled Go value: record and type names are Go
identifiers, and the nil flag of a sequence or mapping implies it has no
contents (a nil Go slice or map necessarily has length zero).  Slices of
element type byte are represented by the dedicated bytes constructor. -/
def wfV : GoValue → Bool
  | GoValue.nil => true
  | GoValue.bytes _ => true
  | GoValue.str _ => true
  | GoValue.int _ => true
  | GoValue.strukt name f => identOK name && wfF f
  | GoValue.slice ty isNil es =>
    identOK ty && (ty ≠ "byte".data) && (!isNil || lenL es == 0) && wfL es
  | GoValue.array ty es => identOK ty && wfL es
  | GoValue.mapv kt vt isNil ps =>
    identOK kt && identOK vt && (!isNil || lenP ps == 0) && wfP ps

/-- Well-formedness of record fields: identifier names, well-formed
values. -/
def wfF : GoFields → Bool
  | GoFields.nil => true
  | GoFields.cons fname v rest => identOK fname && wfV v && wfF rest

/-- Well-formedness of slice/array elements. -/
def wfL : GoList → Bool
  | GoList.nil => true
  | GoList.cons v rest => wfV v && wfL rest

/-- Well-formedness of mapping entries. -/
def wfP : GoPairs → Bool
  | GoPairs.nil => true
  | GoPairs.cons k v rest => wfV k && wfV v && wfP rest

end

/-- A single renderer directive, as produced by a comparison option
(models the repr.Option values the source builds: repr.Hide for a type,
repr.OmitEmpty, repr.IgnoreGoStringer and repr.Indent). -/
inductive ReprOption where
  | hide : List Char → ReprOption
  | omitEmpty : Bool → ReprOption
  | ignoreGoStringer : ReprOption
  | indent : String → ReprOption

/-- A CompareOption modifies how object comparisons behave (source: a
function returning a list of repr options). -/
def CompareOption : Type := Unit → List ReprOption

/-- Exclude fields of the given type from comparison (source: Exclude,
which wraps repr.Hide for the type argument; the model passes the type
by name). -/
def Exclude (tyName : List Char) : CompareOption :=
  fun _ => [ReprOption.hide tyName]

/-- OmitEmpty fields from comparison (source: OmitEmpty). -/
def OmitEmpty : CompareOption :=
  fun _ => [ReprOption.omitEmpty true]

/-- IgnoreGoStringer ignores GoStringer implementations when comparing
(source: IgnoreGoStringer; the modelled rendering has no custom
formatting hooks, so the directive is inert). -/
def IgnoreGoStringer : CompareOption :=
  fun _ => [ReprOption.ignoreGoStringer]

/-- Expand compare options into renderer directives, prepending the
two-space indent directive exactly as the source does. -/
def expandCompareOptions (options : List CompareOption) : List ReprOption :=
  ReprOption.indent "  " :: options.flatMap (fun o => o ())

/-- The set of type names hidden by a directive list. -/
def hiddenOf (ropts : List ReprOption) : List (List Char) :=
  ropts.filterMap (fun o =>
    match o with
    | ReprOption.hide t => some t
    | _ => none)

/-- Whether a directive list switches on empty-field omission; directives
are additive, a later option never overrides an earlier one. -/
def omitOf (ropts : List ReprOption) : Bool :=
  ropts.any (fun o =>
    match o with
    | ReprOption.omitEmpty b => b
    | _ => false)

/-- Modelled from the spec: repr.String — render a value to its
CanonicalForm under the given directives. -/
def reprString (v : GoValue) (ropts : List ReprOption) : List Char :=
  render (normalize (hiddenOf ropts) (omitOf ropts) v)

/-- Byte-for-byte equality of two byte sequences (models bytes.Equal: a
nil slice and an empty one compare equal because both have no bytes). -/
def bytesEqual (a b : Option (List Nat)) : Bool :=
  a.getD [] == b.getD []

/-- Whether a value is the untyped-nil sentinel (models the Go interface
comparison with nil used by the source's first fast path). -/
def isNilValue : GoValue → Bool
  | GoValue.nil => true
  | _ => false

/-- Structural equality as the source decides it (objectsAreEqual):
the nil fast path, the byte fast path, the text fast path, and otherwise
comparison of the canonical renderings under the supplied options. -/
def objectsAreEqual (expected actual : GoValue) (options : List CompareOption) : Bool :=
  if isNilValue expected || isNilValue actual then
    isNilValue expected && isNilValue actual
  else
    match expected, actual with
    | GoValue.bytes eb, GoValue.bytes ab => bytesEqual eb ab
    | GoValue.str es, GoValue.str as2 => es == as2
    | _, _ =>
      let ropts := expandCompareOptions options
      reprString expected ropts == reprString actual ropts

/-- Split a character stream at newline characters (models the Go
strings.Split(s, newline) used by Diff; always returns at least one
line, and a trailing newline yields a trailing empty line). -/
def splitOnNl : List Char → List (List Char)
  | [] => [[]]
  | c :: cs =>
    match splitOnNl cs with
    | [] => [[c]]
    | l :: ls => if c = '\n' then [] :: l :: ls else (c :: l) :: ls

/-- Join lines with newline characters (models strings.Join(lines,
newline)). -/
def joinNl : List (List Char) → List Char
  | [] => []
  | [l] => l
  | l :: ls => l ++ '\n' :: joinNl ls

/-- Modelled from the spec: myers.ComputeEdits of the external gotextdiff
library — a line-level edit script between two texts that is empty
exactly when the texts are equal.  Minimality of the script (the Myers
property) is not modelled; none is returned for no edits, otherwise the
two line sequences of the differing texts. -/
def computeEdits (a b : List Char) : Option (List (List Char) × List (List Char)) :=
  if a = b then none else some (splitOnNl a, splitOnNl b)

/-- Modelled from the spec: the unified-diff formatting of
gotextdiff.ToUnified followed by fmt.Sprint — empty when there are no
edits, otherwise the two file-identity header lines, a hunk header, the
minus- and plus-marked body lines, and a terminating newline. -/
def unifiedChars (a b : List Char) : List Char :=
  match computeEdits a b with
  | none => []
  | some (dels, ins) =>
    joinNl (["--- expected.txt".data, "+++ actual.txt".data,
      "@@ -1,".data ++ natReprChars dels.length ++ " +1,".data ++
        natReprChars ins.length ++ " @@".data] ++
      dels.map (fun l => '-' :: l) ++ ins.map (fun l => '+' :: l) ++ [[]])

/-- The tail of Diff shared by both of its branches: format the edit
script as unified-diff text, split into lines, return empty when there
are fewer than three lines, otherwise drop the first three lines and
rejoin (source: Diff, lines 291 to 296). -/
def diffBody (lhss rhss : List Char) : List Char :=
  let lines := splitOnNl (unifiedChars lhss rhss)
  if lines.length < 3 then [] else joinNl (lines.drop 3)

/-- Diff returns a unified diff of the string representation of two
values (source: Diff).  Strings are special-cased to diff the raw text;
otherwise both values are rendered to CanonicalForm under the expanded
options.  The none result models the panic of the unchecked string type
assertion when the first value is text and the second is not. -/
def Diff (before after : GoValue) (compareOptions : List CompareOption) : Option String :=
  match before with
  | GoValue.str l =>
    match after with
    | GoValue.str r => some (String.mk (diffBody (l.data ++ ['\n']) (r.data ++ ['\n'])))
    | _ => none
  | _ =>
    let ropts := expandCompareOptions compareOptions
    some (String.mk (diffBody (reprString before ropts ++ ['\n'])
      (reprString after ropts ++ ['\n'])))

/-- Whether a pattern is a prefix of a stream, by character equality. -/
def isPref : List Char → List Char → Bool
  | [], _ => true
  | _ :: _, [] => false
  | p :: ps, c :: cs => p = c && isPref ps cs

/-- One greedy left-to-right pass of replacement, with structural fuel so
that it evaluates in the kernel; at each position the pattern is
replaced when it matches, otherwise one character is kept. -/
def replaceAllAux (old rep : List Char) : Nat → List Char → List Char
  | _, [] => []
  | 0, s => s
  | fuel + 1, c :: cs =>
    if isPref old (c :: cs) then rep ++ replaceAllAux old rep fuel ((c :: cs).drop old.length)
    else c :: replaceAllAux old rep fuel cs

/-- Models strings.ReplaceAll for the one way the source uses it: every
leftmost non-overlapping occurrence of old is replaced by rep.  With an
empty old the source's call site replaces by the empty string, so the
stream is returned unchanged. -/
def replaceAll (s old rep : List Char) : List Char :=
  if old.isEmpty then s else replaceAllAux old rep (s.length + 1) s

/-- The containment diagnostic (source: needlePosition): quote both
strings, strip the outer quotes from the needle, substitute every
occurrence of the quoted needle in the quoted haystack by a run of
carets, then blank every non-caret character to a space. -/
def needlePosition (haystack needle : String) : List Char × List Char × List Char :=
  let quotedNeedle0 := quoteChars needle.data
  let quotedNeedle := (quotedNeedle0.drop 1).take (quotedNeedle0.length - 2)
  let quotedHaystack := quoteChars haystack.data
  let rawPositions :=
    replaceAll quotedHaystack quotedNeedle (List.replicate quotedNeedle.length '^')
  let positions := rawPositions.map (fun rn => if rn = '^' then '^' else ' ')
  (quotedHaystack, quotedNeedle, positions)

/-- Whether a value's reflected kind is slice, map or array (the kinds
whose length the zero predicates consult; a byte sequence is a slice). -/
def isLenKind : GoValue → Bool
  | GoValue.bytes _ => true
  | GoValue.slice _ _ _ => true
  | GoValue.array _ _ => true
  | GoValue.mapv _ _ _ _ => true
  | _ => false

/-- The reflected length of a slice, map or array value. -/
def lenOf : GoValue → Nat
  | GoValue.bytes d => (d.getD []).length
  | GoValue.slice _ _ es => lenL es
  | GoValue.array _ es => lenL es
  | GoValue.mapv _ _ _ ps => lenP ps
  | _ => 0

/-- Whether the Zero assertion passes (source: Zero): the value equals
the zero value of its type under raw equality with no options, or its
kind is slice, map or array and its length is zero.  The zero value of
the static type is supplied by the caller, as the Go generic does with
var zero T. -/
def zeroPasses (value zeroval : GoValue) : Bool :=
  objectsAreEqual value zeroval [] || (isLenKind value && lenOf value == 0)

/-- Whether the NotZero assertion passes (source: NotZero): the value
differs from the zero value under raw equality and is not a length-zero
slice, map or array. -/
def notZeroPasses (value zeroval : GoValue) : Bool :=
  !objectsAreEqual value zeroval [] && !(isLenKind value && lenOf value == 0)

/-- One variadic argument of Equal/NotEqual: either a comparison option
or any other value (which is message material). -/
inductive Arg where
  | opt : CompareOption → Arg
  | val : GoValue → Arg

/-- Whether an argument is message material rather than a comparison
option (the source discriminates by a dynamic type assertion). -/
def isMsgArg : Arg → Bool
  | Arg.opt _ => false
  | Arg.val _ => true

/-- Separate a variadic argument list into message material and
comparison options, each in original order (source:
extractCompareOptions). -/
def extractCompareOptions : List Arg → List Arg × List CompareOption
  | [] => ([], [])
  | a :: rest =>
    let p := extractCompareOptions rest
    match a with
    | Arg.opt o => (p.1, o :: p.2)
    | Arg.val v => (Arg.val v :: p.1, p.2)

/-- Modelled from the spec: fmt.Sprintf interpolation of the message
format string with the remaining arguments.  The claims only need that
the result is a function of the format string and the argument list, so
a simple deterministic combination is used. -/
def goSprintf (format : String) (args : List Arg) : String :=
  String.mk (format.data ++ (args.flatMap (fun a =>
    match a with
    | Arg.val v => ' ' :: render v
    | Arg.opt _ => ' ' :: "<option>".data)))

/-- Format a default message with optional caller-supplied format string
and arguments (source: formatMsgAndArgs); none models the panic raised
when the first variadic argument is not a format string. -/
def formatMsgAndArgs (dflt : String) (msgAndArgs : List Arg) : Option String :=
  match msgAndArgs with
  | [] => some dflt
  | Arg.val (GoValue.str format) :: rest => some (goSprintf format rest)
  | _ => none

/-- The observable outcome of an assertion wrapper: success, a fatal
test failure with its message, or a panic. -/
inductive Outcome where
  | pass : Outcome
  | fatal : String → Outcome
  | panicked : Outcome

/-- Equal asserts that expected and actual are equal (source: Equal):
extract the comparison options from the variadic tail, compare, and on
mismatch format the message material and append the diff. -/
def EqualA (expected actual : GoValue) (args : List Arg) : Outcome :=
  let p := extractCompareOptions args
  if objectsAreEqual expected actual p.2 then Outcome.pass
  else
    match formatMsgAndArgs "Expected values to be equal:" p.1 with
    | none => Outcome.panicked
    | some m =>
      match Diff expected actual p.2 with
      | none => Outcome.panicked
      | some d => Outcome.fatal (String.mk (m.data ++ '\n' :: d.data))

/-- NotEqual asserts that expected and actual are not equal (source:
NotEqual): on equality the expected value is displayed, rendered with
the indent directive only. -/
def NotEqualA (expected actual : GoValue) (args : List Arg) : Outcome :=
  let p := extractCompareOptions args
  if !objectsAreEqual expected actual p.2 then Outcome.pass
  else
    match formatMsgAndArgs "Expected values to not be equal but both were:" p.1 with
    | none => Outcome.panicked
    | some m =>
      Outcome.fatal (String.mk (m.data ++ '\n' :: reprString expected
        [ReprOption.indent "  "]))

/-- Consume an exact expected prefix from a stream. -/
def expectStr : List Char → List Char → Option (List Char)
  | [], cs => some cs
  | _ :: _, [] => none
  | p :: ps, c :: cs => if p = c then expectStr ps cs else none

/-- Read a maximal nonempty identifier from the front of a stream. -/
def parseIdent (cs : List Char) : Option (List Char × List Char) :=
  let name := cs.takeWhile identChar
  if name.isEmpty then none else some (name, cs.dropWhile identChar)

/-- Numeric value of a decimal digit character. -/
def digitVal (c : Char) : Nat := c.toNat - 48

/-- Read a maximal nonempty run of decimal digits as a number. -/
def parseNat (cs : List Char) : Option (Nat × List Char) :=
  let ds := cs.takeWhile Char.isDigit
  if ds.isEmpty then none
  else some (ds.foldl (fun a c => 10 * a + digitVal c) 0, cs.dropWhile Char.isDigit)

/-- Read a quoted-string body up to its closing quote, undoing the
escaping of escapeChars. -/
def parseStrBody : List Char → Option (List Char × List Char)
  | [] => none
  | c :: cs =>
    if c = '\\' then
      match cs with
      | [] => none
      | c2 :: cs2 => (parseStrBody cs2).map (fun p => (c2 :: p.1, p.2))
    else if c = '\"' then some ([], cs)
    else (parseStrBody cs).map (fun p => (c :: p.1, p.2))

/-- Read a comma-space separated decimal list up to and including its
closing brace. -/
def parseNatList : Nat → List Char → Option (List Nat × List Char)
  | 0, _ => none
  | _ + 1, [] => none
  | fuel + 1, c :: cs =>
    if c = cbr then some ([], cs)
    else
      match parseNat (c :: cs) with
      | none => none
      | some (n, rest) =>
        match rest with
        | ',' :: ' ' :: rest2 => (parseNatList fuel rest2).map (fun p => (n :: p.1, p.2))
        | c2 :: rest2 => if c2 = cbr then some ([n], rest2) else none
        | [] => none

mutual

/-- Read back one rendered value from the front of a stream.  This
parser exists only to prove that the canonical rendering is injective
on well-formed values: parsing is left inverse to rendering. -/
def parseVal : Nat → List Char → Option (GoValue × List Char)
  | 0, _ => none
  | _ + 1, [] => none
  | fuel + 1, c :: cs =>
    if c = '[' then
      match cs with
      | [] => none
      | c2 :: cs1 =>
        if c2 = ']' then
          match parseIdent cs1 with
          | none => none
          | some (ty, cs2) =>
            if ty = "byte".data then
              match cs2 with
              | [] => none
              | c3 :: cs3 =>
                if c3 = '(' then
                  (expectStr ("nil)".data) cs3).map (fun r => (GoValue.bytes none, r))
                else if c3 = obr then
                  (parseNatList fuel cs3).map (fun p => (GoValue.bytes (some p.1), p.2))
                else none
            else
              match cs2 with
              | [] => none
              | c3 :: cs3 =>
                if c3 = '(' then
                  (expectStr ("nil)".data) cs3).map
                    (fun r => (GoValue.slice ty true GoList.nil, r))
                else if c3 = obr then
                  (parseList fuel cs3).map (fun p => (GoValue.slice ty false p.1, p.2))
                else none
        else
          match parseNat (c2 :: cs1) with
          | none => none
          | some (_, cs2) =>
            match cs2 with
            | ']' :: cs3 =>
              match parseIdent cs3 with
              | none => none
              | some (ty, cs4) =>
                match cs4 with
                | c3 :: cs5 =>
                  if c3 = obr then
                    (parseList fuel cs5).map (fun p => (GoValue.array ty p.1, p.2))
                  else none
                | [] => none
            | _ => none
    else if c = '\"' then (parseStrBody cs).map (fun p => (GoValue.str (String.mk p.1), p.2))
    else if c = '-' then (parseNat cs).map (fun p => (GoValue.int (-(p.1 : Int)), p.2))
    else if c.isDigit then (parseNat (c :: cs)).map (fun p => (GoValue.int ((p.1 : Nat) : Int), p.2))
    else
      match parseIdent (c :: cs) with
      | none => none
      | some (name, cs1) =>
        match cs1 with
        | [] => if name = "nil".data then some (GoValue.nil, []) else none
        | c1 :: cs2 =>
          if c1 = '[' && name = "map".data then
            match parseIdent cs2 with
            | none => none
            | some (kt, cs3) =>
              match cs3 with
              | ']' :: cs4 =>
                match parseIdent cs4 with
                | none => none
                | some (vt, cs5) =>
                  match cs5 with
                  | [] => none
                  | c4 :: cs6 =>
                    if c4 = '(' then
                      (expectStr ("nil)".data) cs6).map
                        (fun r => (GoValue.mapv kt vt true GoPairs.nil, r))
                    else if c4 = obr then
                      (parsePairs fuel cs6).map
                        (fun p => (GoValue.mapv kt vt false p.1, p.2))
                    else none
              | _ => none
          else if c1 = obr then
            (parseFields fuel cs2).map (fun p => (GoValue.strukt name p.1, p.2))
          else if name = "nil".data then some (GoValue.nil, c1 :: cs2) else none

/-- Read back rendered record fields up to and including the closing
brace. -/
def parseFields : Nat → List Char → Option (GoFields × List Char)
  | 0, _ => none
  | _ + 1, [] => none
  | fuel + 1, c :: cs =>
    if c = cbr then some (GoFields.nil, cs)
    else
      match parseIdent (c :: cs) with
      | none => none
      | some (fname, cs1) =>
        match cs1 with
        | ':' :: ' ' :: cs2 =>
          match parseVal fuel cs2 with
          | none => none
          | some (v, cs3) =>
            match cs3 with
            | ',' :: ' ' :: cs4 =>
              (parseFields fuel cs4).map (fun p => (GoFields.cons fname v p.1, p.2))
            | c1 :: cs4 =>
              if c1 = cbr then some (GoFields.cons fname v GoFields.nil, cs4) else none
            | [] => none
        | _ => none

/-- Read back rendered slice/array elements up to and including the
closing brace. -/
def parseList : Nat → List Char → Option (GoList × List Char)
  | 0, _ => none
  | _ + 1, [] => none
  | fuel + 1, c :: cs =>
    if c = cbr then some (GoList.nil, cs)
    else
      match parseVal fuel (c :: cs) with
      | none => none
      | some (v, cs1) =>
        match cs1 with
        | ',' :: ' ' :: cs2 =>
          (parseList fuel cs2).map (fun p => (GoList.cons v p.1, p.2))
        | c1 :: cs2 =>
          if c1 = cbr then some (GoList.cons v GoList.nil, cs2) else none
        | [] => none

/-- Read back rendered mapping entries up to and including the closing
brace. -/
def parsePairs : Nat → List Char → Option (GoPairs × List Char)
  | 0, _ => none
  | _ + 1, [] => none
  | fuel + 1, c :: cs =>
    if c = cbr then some (GoPairs.nil, cs)
    else
      match parseVal fuel (c :: cs) with
      | none => none
      | some (k, cs1) =>
        match cs1 with
        | ':' :: ' ' :: cs2 =>
          match parseVal fuel cs2 with
          | none => none
          | some (v, cs3) =>
            match cs3 with
            | ',' :: ' ' :: cs4 =>
              (parsePairs fuel cs4).map (fun p => (GoPairs.cons k v p.1, p.2))
            | c1 :: cs4 =>
              if c1 = cbr then some (GoPairs.cons k v GoPairs.nil, cs4) else none
            | [] => none
        | _ => none

end

mutual

/-- Structural size of a value, used as the fuel bound for parsing. -/
def sizeV : GoValue → Nat
  | GoValue.nil => 1
  | GoValue.bytes none => 1
  | GoValue.bytes (some d) => d.length + 1
  | GoValue.str _ => 1
  | GoValue.int _ => 1
  | GoValue.strukt _ f => sizeF f + 1
  | GoValue.slice _ _ es => sizeL es + 1
  | GoValue.array _ es => sizeL es + 1
  | GoValue.mapv _ _ _ ps => sizeP ps + 1

/-- Structural size of record fields. -/
def sizeF : GoFields → Nat
  | GoFields.nil => 1
  | GoFields.cons _ v rest => sizeV v + sizeF rest + 1

/-- Structural size of slice/array elements. -/
def sizeL : GoList → Nat
  | GoList.nil => 1
  | GoList.cons v rest => sizeV v + sizeL rest + 1

/-- Structural size of mapping entries. -/
def sizeP : GoPairs → Nat
  | GoPairs.nil => 1
  | GoPairs.cons k v rest => sizeV k + sizeV v + sizeP rest + 1

end

/-- Rest streams that can legally follow a rendered value: nothing, a
separator comma, a closing brace, or the colon after a mapping key. -/
def goodRest : List Char → Prop
  | [] => True
  | c :: _ => c = ',' ∨ c = cbr ∨ c = ':'

/-- Whether a value is a byte sequence (dynamically a Go byte slice). -/
def isBytes : GoValue → Bool
  | GoValue.bytes _ => true
  | _ => false

/-- Whether a value is text (dynamically a Go string). -/
def isStr : GoValue → Bool
  | GoValue.str _ => true
  | _ => false

/-- The caret mask described by the amended containment-diagnostic
claim: scanning the quoted haystack left to right, every leftmost
non-overlapping occurrence of the quoted needle is replaced by a caret
run, a position holding a literal caret keeps it, and every other
position becomes a space.  Structural fuel mirrors replaceAll. -/
def caretMaskAllAux (old : List Char) : Nat → List Char → List Char
  | _, [] => []
  | 0, s => s.map (fun c => if c = '^' then '^' else ' ')
  | fuel + 1, c :: cs =>
    if isPref old (c :: cs) then
      List.replicate old.length '^' ++ caretMaskAllAux old fuel ((c :: cs).drop old.length)
    else (if c = '^' then '^' else ' ') :: caretMaskAllAux old fuel cs

/-- Caret mask over all occurrences; an empty needle marks nothing. -/
def caretMaskAll (s old : List Char) : List Char :=
  if old.isEmpty then s.map (fun c => if c = '^' then '^' else ' ')
  else caretMaskAllAux old (s.length + 1) s

/-- The marker line the original containment-diagnostic claim describes:
carets under the first occurrence region of the quoted needle only, all
other positions blanked to spaces. -/
def caretMaskFirstAux (old : List Char) : Nat → List Char → List Char
  | _, [] => []
  | 0, s => s.map (fun _ => ' ')
  | fuel + 1, c :: cs =>
    if isPref old (c :: cs) then
      List.replicate old.length '^' ++ ((c :: cs).drop old.length).map (fun _ => ' ')
    else ' ' :: caretMaskFirstAux old fuel cs

/-- First-occurrence-only caret mask, per the original claim's words. -/
def caretMaskFirst (s old : List Char) : List Char :=
  if old.isEmpty then s.map (fun _ => ' ') else caretMaskFirstAux old (s.length + 1) s

/-- The one incoherent pair family of the equality/diff contract: an
empty byte sequence against the nil byte sequence (in either order),
equal under the byte fast path yet rendered differently. -/
def c1Exception (a b : GoValue) : Prop :=
  (a = GoValue.bytes (some []) ∧ b = GoValue.bytes none) ∨
  (a = GoValue.bytes none ∧ b = GoValue.bytes (some []))

/-- The comparison option carried by an argument, when it is one. -/
def getOpt : Arg → Option CompareOption
  | Arg.opt o => some o
  | Arg.val _ => none

/-! ### Lemmas about decimal rendering and the parsing primitives -/

theorem digitVal_digitChar {d : Nat} (h : d < 10) : digitVal (Nat.digitChar d) = d := by
  interval_cases d <;> rfl

theorem isDigit_digitChar {d : Nat} (h : d < 10) : (Nat.digitChar d).isDigit = true := by
  interval_cases d <;> rfl

theorem natChars_all_digits (fuel n : Nat) : ∀ c ∈ natChars fuel n, c.isDigit = true := by
  induction fuel generalizing n with
  | zero => intro c hc; simp [natChars] at hc
  | succ fuel ih =>
    intro c hc
    rw [natChars] at hc
    by_cases h : n < 10
    · rw [if_pos h] at hc
      simp at hc
      subst hc
      exact isDigit_digitChar h
    · rw [if_neg h] at hc
      rcases List.mem_append.mp hc with h1 | h1
      · exact ih _ _ h1
      · simp at h1
        subst h1
        exact isDigit_digitChar (Nat.mod_lt _ (by norm_num))

theorem natChars_ne_nil (fuel n : Nat) (h : 0 < fuel) : natChars fuel n ≠ [] := by
  cases fuel with
  | zero => omega
  | succ fuel =>
    rw [natChars]
    by_cases h10 : n < 10
    · simp [h10]
    · simp [h10]

theorem natChars_foldl (fuel n : Nat) (h : n < fuel) :
    (natChars fuel n).foldl (fun a c => 10 * a + digitVal c) 0 = n := by
  induction fuel generalizing n with
  | zero => omega
  | succ fuel ih =>
    rw [natChars]
    by_cases h10 : n < 10
    · rw [if_pos h10]
      simp [digitVal_digitChar h10]
    · rw [if_neg h10, List.foldl_append]
      have hpos : 0 < n := by omega
      have hdivlt : n / 10 < n := Nat.div_lt_self hpos (by norm_num)
      rw [ih (n / 10) (by omega)]
      simp [digitVal_digitChar (Nat.mod_lt _ (by norm_num : (0:Nat) < 10))]
      omega

theorem natReprChars_all_digits (n : Nat) : ∀ c ∈ natReprChars n, c.isDigit = true :=
  natChars_all_digits (n + 1) n

theorem natReprChars_ne_nil (n : Nat) : natReprChars n ≠ [] :=
  natChars_ne_nil (n + 1) n (by omega)

theorem natReprChars_foldl (n : Nat) :
    (natReprChars n).foldl (fun a c => 10 * a + digitVal c) 0 = n :=
  natChars_foldl (n + 1) n (by omega)

theorem takeWhile_append_split {p : Char → Bool} (l r : List Char)
    (hl : ∀ c ∈ l, p c = true) (hr : ∀ c cs, r = c :: cs → p c = false) :
    (l ++ r).takeWhile p = l ∧ (l ++ r).dropWhile p = r := by
  induction l with
  | nil =>
    cases r with
    | nil => simp
    | cons c cs => simp [List.takeWhile_cons, List.dropWhile_cons, hr c cs rfl]
  | cons a l ih =>
    have ha : p a = true := hl a (List.mem_cons_self a l)
    have ihl : ∀ c ∈ l, p c = true := fun c hc => hl c (List.mem_cons_of_mem a hc)
    obtain ⟨h1, h2⟩ := ih ihl
    simp [List.takeWhile_cons, List.dropWhile_cons, ha, h1, h2]

theorem identOK_ne_nil {s : List Char} (h : identOK s = true) : s ≠ [] := by
  cases s with
  | nil => simp [identOK] at h
  | cons c cs => simp

theorem identOK_all {s : List Char} (h : identOK s = true) : ∀ c ∈ s, identChar c = true := by
  cases s with
  | nil => simp [identOK] at h
  | cons c cs =>
    simp only [identOK, Bool.and_eq_true] at h
    exact fun d hd => by
      have := List.all_eq_true.mp h.2
      exact this d hd

theorem identOK_head_not_digit {c : Char} {cs : List Char}
    (h : identOK (c :: cs) = true) : c.isDigit = false := by
  simp only [identOK, Bool.and_eq_true] at h
  cases hd : c.isDigit with
  | false => rfl
  | true => rw [hd] at h; simp at h

theorem parseIdent_append (name r : List Char)
    (hok : identOK name = true)
    (hr : ∀ c cs, r = c :: cs → identChar c = false) :
    parseIdent (name ++ r) = some (name, r) := by
  obtain ⟨h1, h2⟩ := takeWhile_append_split name r (identOK_all hok) hr
  simp [parseIdent, h1, h2, identOK_ne_nil hok]

theorem parseNat_append (n : Nat) (r : List Char)
    (hr : ∀ c cs, r = c :: cs → c.isDigit = false) :
    parseNat (natReprChars n ++ r) = some (n, r) := by
  obtain ⟨h1, h2⟩ := takeWhile_append_split (natReprChars n) r (natReprChars_all_digits n) hr
  simp [parseNat, h1, h2, natReprChars_ne_nil n, natReprChars_foldl n]

theorem expectStr_append (pat r : List Char) : expectStr pat (pat ++ r) = some r := by
  induction pat with
  | nil => rfl
  | cons p ps ih => simp [expectStr, ih]

theorem parseStrBody_append (s r : List Char) :
    parseStrBody (escapeChars s ++ '\"' :: r) = some (s, r) := by
  induction s with
  | nil => simp [escapeChars, parseStrBody.eq_def]
  | cons c cs ih =>
    rw [escapeChars]
    by_cases h : (c = '\"' || c = '\\') = true
    · rw [if_pos h]
      have hform : ('\\' :: c :: escapeChars cs) ++ '\"' :: r =
          '\\' :: c :: (escapeChars cs ++ '\"' :: r) := by simp
      rw [hform]
      rw [parseStrBody.eq_def]
      simp [ih]
    · rw [if_neg h]
      have hq : ¬(c = '\"') := by
        intro hc; apply h; rw [hc]; simp
      have hb : ¬(c = '\\') := by
        intro hc; apply h; rw [hc]; simp
      have hform : (c :: escapeChars cs) ++ '\"' :: r =
          c :: (escapeChars cs ++ '\"' :: r) := by simp
      rw [hform]
      rw [parseStrBody.eq_def]
      simp only [if_neg hb, if_neg hq]
      simp [ih]

theorem goodRest_identChar_false {r : List Char} (h : goodRest r) :
    ∀ c cs, r = c :: cs → identChar c = false := by
  intro c cs he
  subst he
  rcases h with h | h | h <;> (rw [h]; decide)

theorem goodRest_isDigit_false {r : List Char} (h : goodRest r) :
    ∀ c cs, r = c :: cs → c.isDigit = false := by
  intro c cs he
  subst he
  rcases h with h | h | h <;> (rw [h]; decide)

theorem natReprChars_head (x : Nat) :
    ∃ hc tc, natReprChars x = hc :: tc ∧ hc.isDigit = true := by
  cases h : natReprChars x with
  | nil => exact absurd h (natReprChars_ne_nil x)
  | cons a b =>
    refine ⟨a, b, rfl, ?_⟩
    have := natReprChars_all_digits x
    rw [h] at this
    exact this a (List.mem_cons_self a b)

theorem digit_ne_of_false {c d : Char} (h : c.isDigit = true) (hd : d.isDigit = false) :
    ¬(c = d) := by
  intro he
  rw [he] at h
  rw [h] at hd
  cases hd

theorem identChar_ne_of_false {c d : Char} (h : identChar c = true)
    (hd : identChar d = false) : ¬(c = d) := by
  intro he
  rw [he] at h
  rw [h] at hd
  cases hd

theorem parseNatList_append (fuel : Nat) (d : List Nat) (r : List Char)
    (hf : d.length < fuel) :
    parseNatList fuel (natList d ++ cbr :: r) = some (d, r) := by
  induction d generalizing fuel r with
  | nil =>
    cases fuel with
    | zero => omega
    | succ fuel =>
      rw [show natList [] ++ cbr :: r = cbr :: r from rfl]
      rw [parseNatList.eq_def]
      simp
  | cons x d ih =>
    cases fuel with
    | zero => omega
    | succ fuel =>
      obtain ⟨hc, tc, hx, hdig⟩ := natReprChars_head x
      have hne : ¬(hc = cbr) := digit_ne_of_false hdig (by decide)
      cases d with
      | nil =>
        have hp : parseNat (hc :: (tc ++ cbr :: r)) = some (x, cbr :: r) := by
          rw [← List.cons_append, ← hx]
          exact parseNat_append x (cbr :: r)
            (by intro c cs he; injection he with h1 h2; rw [← h1]; decide)
        rw [show natList [x] ++ cbr :: r = natReprChars x ++ cbr :: r by simp [natList]]
        rw [hx, List.cons_append, parseNatList.eq_def]
        simp only [if_neg hne]
        rw [hp]
        simp [cbr]
      | cons y d2 =>
        have hstream : natList (x :: y :: d2) ++ cbr :: r =
            hc :: (tc ++ ',' :: ' ' :: (natList (y :: d2) ++ cbr :: r)) := by
          rw [show natList (x :: y :: d2) =
            natReprChars x ++ ',' :: ' ' :: natList (y :: d2) from rfl, hx]
          simp
        have hp : parseNat (hc :: (tc ++ ',' :: ' ' :: (natList (y :: d2) ++ cbr :: r))) =
            some (x, ',' :: ' ' :: (natList (y :: d2) ++ cbr :: r)) := by
          rw [← List.cons_append, ← hx]
          exact parseNat_append x _
            (by intro c cs he; injection he with h1 h2; rw [← h1]; decide)
        rw [hstream, parseNatList.eq_def]
        simp only [if_neg hne]
        rw [hp]
        simp only [List.cons.injEq]
        have hih := ih fuel r (by simp at hf ⊢; omega)
        simp [hih]

theorem sizeV_pos (v : GoValue) : 0 < sizeV v := by
  cases v with
  | bytes d => cases d <;> simp [sizeV]
  | _ => simp [sizeV]

theorem sizeF_pos (f : GoFields) : 0 < sizeF f := by
  cases f <;> simp [sizeF]

theorem sizeL_pos (es : GoList) : 0 < sizeL es := by
  cases es <;> simp [sizeL]

theorem sizeP_pos (ps : GoPairs) : 0 < sizeP ps := by
  cases ps <;> simp [sizeP]


theorem identOK_head (s : List Char) (h : identOK s = true) :
    ∃ hc tc, s = hc :: tc ∧ identChar hc = true ∧ hc.isDigit = false := by
  cases s with
  | nil => simp [identOK] at h
  | cons c cs =>
    exact ⟨c, cs, rfl, identOK_all h c (List.mem_cons_self c cs), identOK_head_not_digit h⟩

theorem obr_ne_open : ¬(obr = '(') := by decide

theorem obr_ne_bracket : ¬(obr = '[') := by decide

theorem lenL_eq_zero {es : GoList} (h : lenL es = 0) : es = GoList.nil := by
  cases es with
  | nil => rfl
  | cons v rest => simp [lenL] at h

theorem lenP_eq_zero {ps : GoPairs} (h : lenP ps = 0) : ps = GoPairs.nil := by
  cases ps with
  | nil => rfl
  | cons k v rest => simp [lenP] at h

theorem render_ne_nil (v : GoValue) : render v ≠ [] := by
  cases v with
  | nil => simp [render]
  | bytes d =>
    cases d with
    | none => simp [render]
    | some d => simp [render]
  | str s => simp [render, quoteChars]
  | int n =>
    rw [render, intReprChars]
    by_cases h : n < 0
    · simp [h]
    · simp [h, natReprChars_ne_nil]
  | strukt name f => simp [render]
  | slice ty isNil es => cases isNil <;> simp [render]
  | array ty es => simp [render]
  | mapv kt vt isNil ps => cases isNil <;> simp [render]

theorem render_head_ne_cbr (v : GoValue) (hw : wfV v = true) :
    ∀ c cs, render v = c :: cs → ¬(c = cbr) := by
  intro c cs he
  cases v with
  | nil =>
    rw [show render GoValue.nil = 'n' :: 'i' :: 'l' :: [] from rfl] at he
    injection he with h1 _
    rw [← h1]; decide
  | bytes d =>
    cases d with
    | none =>
      rw [show render (GoValue.bytes none) = '[' :: "]byte(nil)".data from rfl] at he
      injection he with h1 _
      rw [← h1]; decide
    | some d =>
      rw [show render (GoValue.bytes (some d)) =
        '[' :: (']' :: 'b' :: 'y' :: 't' :: 'e' :: obr :: (natList d ++ [cbr])) by simp [render]] at he
      injection he with h1 _
      rw [← h1]; decide
  | str s =>
    rw [show render (GoValue.str s) = '\"' :: (escapeChars s.data ++ ['\"']) by
      simp [render, quoteChars]] at he
    injection he with h1 _
    rw [← h1]; decide
  | int n =>
    rw [render, intReprChars] at he
    by_cases h : n < 0
    · rw [if_pos h] at he
      injection he with h1 _
      rw [← h1]; decide
    · rw [if_neg h] at he
      obtain ⟨hc, tc, hx, hdig⟩ := natReprChars_head n.natAbs
      rw [hx] at he
      injection he with h1 _
      rw [← h1]
      exact digit_ne_of_false hdig (by decide)
  | strukt name f =>
    rw [wfV] at hw
    simp only [Bool.and_eq_true] at hw
    obtain ⟨hc, tc, hname, hident, _⟩ := identOK_head name hw.1
    rw [show render (GoValue.strukt name f) = name ++ obr :: (renderF f ++ [cbr]) by
      simp [render], hname, List.cons_append] at he
    injection he with h1 _
    rw [← h1]
    exact identChar_ne_of_false hident (by decide)
  | slice ty isNil es =>
    cases isNil with
    | true =>
      rw [show render (GoValue.slice ty true es) = '[' :: (']' :: (ty ++ "(nil)".data)) by
        simp [render]] at he
      injection he with h1 _
      rw [← h1]; decide
    | false =>
      rw [show render (GoValue.slice ty false es) =
        '[' :: (']' :: (ty ++ obr :: (renderL es ++ [cbr]))) by simp [render]] at he
      injection he with h1 _
      rw [← h1]; decide
  | array ty es =>
    rw [show render (GoValue.array ty es) =
      '[' :: (natReprChars (lenL es) ++ ']' :: (ty ++ obr :: (renderL es ++ [cbr]))) by
      simp [render]] at he
    injection he with h1 _
    rw [← h1]; decide
  | mapv kt vt isNil ps =>
    cases isNil with
    | true =>
      rw [show render (GoValue.mapv kt vt true ps) =
        'm' :: ('a' :: 'p' :: '[' :: (kt ++ ']' :: (vt ++ "(nil)".data))) by
        simp [render]] at he
      injection he with h1 _
      rw [← h1]; decide
    | false =>
      rw [show render (GoValue.mapv kt vt false ps) =
        'm' :: ('a' :: 'p' :: '[' :: (kt ++ ']' :: (vt ++ obr :: (renderP ps ++ [cbr])))) by
        simp [render]] at he
      injection he with h1 _
      rw [← h1]; decide

theorem render_head (v : GoValue) (hw : wfV v = true) :
    ∃ hc tc, render v = hc :: tc ∧ ¬(hc = cbr) := by
  cases h : render v with
  | nil => exact absurd h (render_ne_nil v)
  | cons a b => exact ⟨a, b, rfl, render_head_ne_cbr v hw a b h⟩

theorem wfV_strukt_parts {name : List Char} {f : GoFields}
    (h : wfV (GoValue.strukt name f) = true) :
    identOK name = true ∧ wfF f = true := by
  rw [wfV] at h
  simp only [Bool.and_eq_true] at h
  exact h

theorem wfV_slice_parts {ty : List Char} {isNil : Bool} {es : GoList}
    (h : wfV (GoValue.slice ty isNil es) = true) :
    identOK ty = true ∧ ¬(ty = "byte".data) ∧ (isNil = true → es = GoList.nil) ∧
      wfL es = true := by
  rw [wfV] at h
  simp only [Bool.and_eq_true, Bool.or_eq_true, decide_eq_true_eq, beq_iff_eq,
    Bool.not_true, Bool.not_false, Bool.false_or, Bool.true_or] at h
  cases isNil with
  | true =>
    refine ⟨by tauto, by tauto, fun _ => lenL_eq_zero (by tauto), by tauto⟩
  | false =>
    exact ⟨by tauto, by tauto, fun hh => absurd hh (by simp), by tauto⟩

theorem wfV_array_parts {ty : List Char} {es : GoList}
    (h : wfV (GoValue.array ty es) = true) :
    identOK ty = true ∧ wfL es = true := by
  rw [wfV] at h
  simp only [Bool.and_eq_true] at h
  exact h

theorem wfV_mapv_parts {kt vt : List Char} {isNil : Bool} {ps : GoPairs}
    (h : wfV (GoValue.mapv kt vt isNil ps) = true) :
    identOK kt = true ∧ identOK vt = true ∧ (isNil = true → ps = GoPairs.nil) ∧
      wfP ps = true := by
  rw [wfV] at h
  simp only [Bool.and_eq_true, Bool.or_eq_true, decide_eq_true_eq, beq_iff_eq,
    Bool.not_true, Bool.not_false, Bool.false_or, Bool.true_or] at h
  cases isNil with
  | true =>
    refine ⟨by tauto, by tauto, fun _ => lenP_eq_zero (by tauto), by tauto⟩
  | false =>
    exact ⟨by tauto, by tauto, fun hh => absurd hh (by simp), by tauto⟩

theorem wfF_cons_parts {fname : List Char} {v : GoValue} {rest : GoFields}
    (h : wfF (GoFields.cons fname v rest) = true) :
    identOK fname = true ∧ wfV v = true ∧ wfF rest = true := by
  rw [wfF] at h
  simp only [Bool.and_eq_true] at h
  tauto

theorem wfL_cons_parts {v : GoValue} {rest : GoList}
    (h : wfL (GoList.cons v rest) = true) :
    wfV v = true ∧ wfL rest = true := by
  rw [wfL] at h
  simp only [Bool.and_eq_true] at h
  exact h

theorem wfP_cons_parts {k v : GoValue} {rest : GoPairs}
    (h : wfP (GoPairs.cons k v rest) = true) :
    wfV k = true ∧ wfV v = true ∧ wfP rest = true := by
  rw [wfP] at h
  simp only [Bool.and_eq_true] at h
  tauto

mutual

theorem parseVal_render : ∀ (fuel : Nat) (v : GoValue) (r : List Char),
    sizeV v < fuel → wfV v = true → goodRest r →
    parseVal fuel (render v ++ r) = some (v, r)
  | 0, v, _, hf, _, _ => absurd hf (by have := sizeV_pos v; omega)
  | fuel + 1, GoValue.nil, r, _, _, hr => by
    have hp : parseIdent ('n' :: 'i' :: 'l' :: r) = some ("nil".data, r) :=
      parseIdent_append "nil".data r (by decide) (goodRest_identChar_false hr)
    rw [show render GoValue.nil ++ r = 'n' :: 'i' :: 'l' :: r from rfl]
    rw [parseVal.eq_def]
    simp [hp]
    cases r with
    | nil => simp
    | cons c cs => rcases hr with h | h | h <;> (subst h; simp [obr, cbr])
  | fuel + 1, GoValue.bytes none, r, _, _, _ => by
    have hid : parseIdent ('b' :: 'y' :: 't' :: 'e' :: '(' :: 'n' :: 'i' :: 'l' :: ')' :: r) =
        some ("byte".data, '(' :: 'n' :: 'i' :: 'l' :: ')' :: r) := by
      have := parseIdent_append "byte".data ('(' :: 'n' :: 'i' :: 'l' :: ')' :: r) (by decide)
        (by intro c cs he; injection he with h1 _; rw [← h1]; decide)
      simpa using this
    have hex : expectStr ("nil)".data) ('n' :: 'i' :: 'l' :: ')' :: r) = some r := by
      have := expectStr_append ("nil)".data) r
      simpa using this
    rw [show render (GoValue.bytes none) ++ r =
      '[' :: ']' :: 'b' :: 'y' :: 't' :: 'e' :: '(' :: 'n' :: 'i' :: 'l' :: ')' :: r from rfl]
    rw [parseVal.eq_def]
    simp [hid, hex]
  | fuel + 1, GoValue.bytes (some d), r, hf, _, _ => by
    have hid : parseIdent ('b' :: 'y' :: 't' :: 'e' :: obr :: (natList d ++ cbr :: r)) =
        some ("byte".data, obr :: (natList d ++ cbr :: r)) := by
      have := parseIdent_append "byte".data (obr :: (natList d ++ cbr :: r)) (by decide)
        (by intro c cs he; injection he with h1 _; rw [← h1]; decide)
      simpa using this
    have hnl : parseNatList fuel (natList d ++ cbr :: r) = some (d, r) :=
      parseNatList_append fuel d r (by simp [sizeV] at hf; omega)
    have hstream : render (GoValue.bytes (some d)) ++ r =
        '[' :: ']' :: 'b' :: 'y' :: 't' :: 'e' :: obr :: (natList d ++ cbr :: r) := by
      simp [render]
    rw [hstream, parseVal.eq_def]
    simp [hid, hnl, obr_ne_open]
  | fuel + 1, GoValue.str s, r, _, _, _ => by
    rw [show render (GoValue.str s) ++ r =
      '\"' :: (escapeChars s.data ++ '\"' :: r) by simp [render, quoteChars]]
    rw [parseVal.eq_def]
    simp [parseStrBody_append s.data r]
  | fuel + 1, GoValue.int n, r, _, _, hr => by
    obtain ⟨hc, tc, hx, hdig⟩ := natReprChars_head n.natAbs
    have hpn : parseNat (natReprChars n.natAbs ++ r) = some (n.natAbs, r) :=
      parseNat_append n.natAbs r (goodRest_isDigit_false hr)
    rw [show render (GoValue.int n) = intReprChars n from rfl, intReprChars]
    by_cases hneg : n < 0
    · rw [if_pos hneg, List.cons_append, parseVal.eq_def]
      simp [hpn]
      rw [abs_of_neg hneg]
      ring
    · rw [if_neg hneg, hx, List.cons_append, parseVal.eq_def]
      have h1 : ¬(hc = '[') := digit_ne_of_false hdig (by decide)
      have h2 : ¬(hc = '\"') := digit_ne_of_false hdig (by decide)
      have h3 : ¬(hc = '-') := digit_ne_of_false hdig (by decide)
      simp only [if_neg h1, if_neg h2, if_neg h3, if_pos hdig]
      rw [← List.cons_append, ← hx, hpn]
      simp
      omega
  | fuel + 1, GoValue.strukt name f, r, hf, hw, _ => by
    obtain ⟨hok, hwf⟩ := wfV_strukt_parts hw
    obtain ⟨hc, tc, hname, hident, hdig⟩ := identOK_head name hok
    have hid : parseIdent (name ++ obr :: (renderF f ++ cbr :: r)) =
        some (name, obr :: (renderF f ++ cbr :: r)) :=
      parseIdent_append name _ hok
        (by intro c cs he; injection he with h1 _; rw [← h1]; decide)
    have hfields : parseFields fuel (renderF f ++ cbr :: r) = some (f, r) :=
      parseFields_render fuel f r (by simp [sizeV] at hf; omega) hwf
    have hstream : render (GoValue.strukt name f) ++ r =
        name ++ obr :: (renderF f ++ cbr :: r) := by
      simp [render]
    rw [hstream, hname, List.cons_append, parseVal.eq_def]
    have h1 : ¬(hc = '[') := identChar_ne_of_false hident (by decide)
    have h2 : ¬(hc = '\"') := identChar_ne_of_false hident (by decide)
    have h3 : ¬(hc = '-') := identChar_ne_of_false hident (by decide)
    simp only [if_neg h1, if_neg h2, if_neg h3, hdig, Bool.false_eq_true, if_false]
    rw [← List.cons_append, ← hname, hid]
    simp [hfields, obr_ne_bracket]
  | fuel + 1, GoValue.slice ty true es, r, hf, hw, _ => by
    obtain ⟨hok, hty, hnil, _⟩ := wfV_slice_parts hw
    have hesnil : es = GoList.nil := hnil rfl
    subst hesnil
    have hid : parseIdent (ty ++ '(' :: 'n' :: 'i' :: 'l' :: ')' :: r) =
        some (ty, '(' :: 'n' :: 'i' :: 'l' :: ')' :: r) :=
      parseIdent_append ty _ hok
        (by intro c cs he; injection he with h1 _; rw [← h1]; decide)
    have hex : expectStr ("nil)".data) ('n' :: 'i' :: 'l' :: ')' :: r) = some r := by
      have := expectStr_append ("nil)".data) r
      simpa using this
    have hstream : render (GoValue.slice ty true GoList.nil) ++ r =
        '[' :: ']' :: (ty ++ '(' :: 'n' :: 'i' :: 'l' :: ')' :: r) := by
      simp [render]
    rw [hstream, parseVal.eq_def]
    simp [hid, hex, hty]
  | fuel + 1, GoValue.slice ty false es, r, hf, hw, _ => by
    obtain ⟨hok, hty, -, hwl⟩ := wfV_slice_parts hw
    have hid : parseIdent (ty ++ obr :: (renderL es ++ cbr :: r)) =
        some (ty, obr :: (renderL es ++ cbr :: r)) :=
      parseIdent_append ty _ hok
        (by intro c cs he; injection he with h1 _; rw [← h1]; decide)
    have hlist : parseList fuel (renderL es ++ cbr :: r) = some (es, r) :=
      parseList_render fuel es r (by simp [sizeV] at hf; omega) hwl
    have hstream : render (GoValue.slice ty false es) ++ r =
        '[' :: ']' :: (ty ++ obr :: (renderL es ++ cbr :: r)) := by
      simp [render]
    rw [hstream, parseVal.eq_def]
    simp [hid, hlist, hty, obr_ne_open]
  | fuel + 1, GoValue.array ty es, r, hf, hw, _ => by
    obtain ⟨hok, hwl⟩ := wfV_array_parts hw
    obtain ⟨hc, tc, hx, hdig⟩ := natReprChars_head (lenL es)
    have hpn : parseNat (natReprChars (lenL es) ++
        ']' :: (ty ++ obr :: (renderL es ++ cbr :: r))) =
        some (lenL es, ']' :: (ty ++ obr :: (renderL es ++ cbr :: r))) :=
      parseNat_append _ _ (by intro c cs he; injection he with h1 _; rw [← h1]; decide)
    have hid : parseIdent (ty ++ obr :: (renderL es ++ cbr :: r)) =
        some (ty, obr :: (renderL es ++ cbr :: r)) :=
      parseIdent_append ty _ hok
        (by intro c cs he; injection he with h1 _; rw [← h1]; decide)
    have hlist : parseList fuel (renderL es ++ cbr :: r) = some (es, r) :=
      parseList_render fuel es r (by simp [sizeV] at hf; omega) hwl
    have hstream : render (GoValue.array ty es) ++ r =
        '[' :: (natReprChars (lenL es) ++ ']' :: (ty ++ obr :: (renderL es ++ cbr :: r))) := by
      simp [render]
    rw [hstream, hx, List.cons_append, parseVal.eq_def]
    have h1 : ¬(hc = ']') := digit_ne_of_false hdig (by decide)
    simp only [if_neg h1]
    rw [← List.cons_append, ← hx, hpn]
    simp [hid, hlist, obr_ne_open]
  | fuel + 1, GoValue.mapv kt vt true ps, r, hf, hw, _ => by
    obtain ⟨hkt, hvt, hnil, -⟩ := wfV_mapv_parts hw
    have hpsnil : ps = GoPairs.nil := hnil rfl
    subst hpsnil
    have hidm : parseIdent ('m' :: 'a' :: 'p' ::
        '[' :: (kt ++ ']' :: (vt ++ '(' :: 'n' :: 'i' :: 'l' :: ')' :: r))) =
        some ("map".data, '[' :: (kt ++ ']' :: (vt ++ '(' :: 'n' :: 'i' :: 'l' :: ')' :: r))) := by
      have := parseIdent_append "map".data
        ('[' :: (kt ++ ']' :: (vt ++ '(' :: 'n' :: 'i' :: 'l' :: ')' :: r))) (by decide)
        (by intro c cs he; injection he with h1 _; rw [← h1]; decide)
      simpa using this
    have hidk : parseIdent (kt ++ ']' :: (vt ++ '(' :: 'n' :: 'i' :: 'l' :: ')' :: r)) =
        some (kt, ']' :: (vt ++ '(' :: 'n' :: 'i' :: 'l' :: ')' :: r)) :=
      parseIdent_append kt _ hkt
        (by intro c cs he; injection he with h1 _; rw [← h1]; decide)
    have hidv : parseIdent (vt ++ '(' :: 'n' :: 'i' :: 'l' :: ')' :: r) =
        some (vt, '(' :: 'n' :: 'i' :: 'l' :: ')' :: r) :=
      parseIdent_append vt _ hvt
        (by intro c cs he; injection he with h1 _; rw [← h1]; decide)
    have hex : expectStr ("nil)".data) ('n' :: 'i' :: 'l' :: ')' :: r) = some r := by
      have := expectStr_append ("nil)".data) r
      simpa using this
    have hstream : render (GoValue.mapv kt vt true GoPairs.nil) ++ r =
        'm' :: 'a' :: 'p' :: '[' :: (kt ++ ']' :: (vt ++ '(' :: 'n' :: 'i' :: 'l' :: ')' :: r)) := by
      simp [render]
    rw [hstream, parseVal.eq_def]
    simp [hidm, hidk, hidv, hex]
  | fuel + 1, GoValue.mapv kt vt false ps, r, hf, hw, _ => by
    obtain ⟨hkt, hvt, -, hwp⟩ := wfV_mapv_parts hw
    have hidm : parseIdent ('m' :: 'a' :: 'p' ::
        '[' :: (kt ++ ']' :: (vt ++ obr :: (renderP ps ++ cbr :: r)))) =
        some ("map".data, '[' :: (kt ++ ']' :: (vt ++ obr :: (renderP ps ++ cbr :: r)))) := by
      have := parseIdent_append "map".data
        ('[' :: (kt ++ ']' :: (vt ++ obr :: (renderP ps ++ cbr :: r)))) (by decide)
        (by intro c cs he; injection he with h1 _; rw [← h1]; decide)
      simpa using this
    have hidk : parseIdent (kt ++ ']' :: (vt ++ obr :: (renderP ps ++ cbr :: r))) =
        some (kt, ']' :: (vt ++ obr :: (renderP ps ++ cbr :: r))) :=
      parseIdent_append kt _ hkt
        (by intro c cs he; injection he with h1 _; rw [← h1]; decide)
    have hidv : parseIdent (vt ++ obr :: (renderP ps ++ cbr :: r)) =
        some (vt, obr :: (renderP ps ++ cbr :: r)) :=
      parseIdent_append vt _ hvt
        (by intro c cs he; injection he with h1 _; rw [← h1]; decide)
    have hpairs : parsePairs fuel (renderP ps ++ cbr :: r) = some (ps, r) :=
      parsePairs_render fuel ps r (by simp [sizeV] at hf; omega) hwp
    have hstream : render (GoValue.mapv kt vt false ps) ++ r =
        'm' :: 'a' :: 'p' :: '[' :: (kt ++ ']' :: (vt ++ obr :: (renderP ps ++ cbr :: r))) := by
      simp [render]
    rw [hstream, parseVal.eq_def]
    simp [hidm, hidk, hidv, hpairs, obr_ne_open]

theorem parseFields_render : ∀ (fuel : Nat) (f : GoFields) (r : List Char),
    sizeF f < fuel → wfF f = true →
    parseFields fuel (renderF f ++ cbr :: r) = some (f, r)
  | 0, f, _, hf, _ => absurd hf (by have := sizeF_pos f; omega)
  | fuel + 1, GoFields.nil, r, _, _ => by
    rw [show renderF GoFields.nil ++ cbr :: r = cbr :: r from rfl, parseFields.eq_def]
    simp
  | fuel + 1, GoFields.cons fname v GoFields.nil, r, hf, hw => by
    obtain ⟨hok, hwv, -⟩ := wfF_cons_parts hw
    obtain ⟨hc, tc, hname, hident, _⟩ := identOK_head fname hok
    have hid : parseIdent (fname ++ ':' :: ' ' :: (render v ++ cbr :: r)) =
        some (fname, ':' :: ' ' :: (render v ++ cbr :: r)) :=
      parseIdent_append fname _ hok
        (by intro c cs he; injection he with h1 _; rw [← h1]; decide)
    have hv : parseVal fuel (render v ++ cbr :: r) = some (v, cbr :: r) :=
      parseVal_render fuel v (cbr :: r) (by simp [sizeF] at hf; omega)
        hwv (Or.inr (Or.inl rfl))
    have hstream : renderF (GoFields.cons fname v GoFields.nil) ++ cbr :: r =
        fname ++ ':' :: ' ' :: (render v ++ cbr :: r) := by
      simp [renderF]
    rw [hstream, hname, List.cons_append, parseFields.eq_def]
    have h1 : ¬(hc = cbr) := identChar_ne_of_false hident (by decide)
    simp only [if_neg h1]
    rw [← List.cons_append, ← hname, hid]
    simp only [cbr] at hv ⊢
    simp [hv]
  | fuel + 1, GoFields.cons fname v (GoFields.cons g w rest), r, hf, hw => by
    obtain ⟨hok, hwv, hwrest⟩ := wfF_cons_parts hw
    obtain ⟨hc, tc, hname, hident, _⟩ := identOK_head fname hok
    have hid : parseIdent (fname ++ ':' :: ' ' ::
        (render v ++ ',' :: ' ' :: (renderF (GoFields.cons g w rest) ++ cbr :: r))) =
        some (fname, ':' :: ' ' ::
          (render v ++ ',' :: ' ' :: (renderF (GoFields.cons g w rest) ++ cbr :: r))) :=
      parseIdent_append fname _ hok
        (by intro c cs he; injection he with h1 _; rw [← h1]; decide)
    have hv : parseVal fuel
        (render v ++ ',' :: ' ' :: (renderF (GoFields.cons g w rest) ++ cbr :: r)) =
        some (v, ',' :: ' ' :: (renderF (GoFields.cons g w rest) ++ cbr :: r)) :=
      parseVal_render fuel v _
        (by simp [sizeF] at hf; have := sizeF_pos rest; have := sizeV_pos w; omega)
        hwv (Or.inl rfl)
    have hrest : parseFields fuel (renderF (GoFields.cons g w rest) ++ cbr :: r) =
        some (GoFields.cons g w rest, r) :=
      parseFields_render fuel (GoFields.cons g w rest) r
        (by simp [sizeF] at hf ⊢; have := sizeV_pos v; omega) hwrest
    have hstream : renderF (GoFields.cons fname v (GoFields.cons g w rest)) ++ cbr :: r =
        fname ++ ':' :: ' ' ::
          (render v ++ ',' :: ' ' :: (renderF (GoFields.cons g w rest) ++ cbr :: r)) := by
      simp [renderF]
    rw [hstream, hname, List.cons_append, parseFields.eq_def]
    have h1 : ¬(hc = cbr) := identChar_ne_of_false hident (by decide)
    simp only [if_neg h1]
    rw [← List.cons_append, ← hname, hid]
    simp [hv, hrest]

theorem parseList_render : ∀ (fuel : Nat) (es : GoList) (r : List Char),
    sizeL es < fuel → wfL es = true →
    parseList fuel (renderL es ++ cbr :: r) = some (es, r)
  | 0, es, _, hf, _ => absurd hf (by have := sizeL_pos es; omega)
  | fuel + 1, GoList.nil, r, _, _ => by
    rw [show renderL GoList.nil ++ cbr :: r = cbr :: r from rfl, parseList.eq_def]
    simp
  | fuel + 1, GoList.cons v GoList.nil, r, hf, hw => by
    obtain ⟨hwv, -⟩ := wfL_cons_parts hw
    have hv : parseVal fuel (render v ++ cbr :: r) = some (v, cbr :: r) :=
      parseVal_render fuel v (cbr :: r) (by simp [sizeL] at hf; omega)
        hwv (Or.inr (Or.inl rfl))
    obtain ⟨hc, tc, hrv, hnc⟩ := render_head v hwv
    have hstream : renderL (GoList.cons v GoList.nil) ++ cbr :: r = render v ++ cbr :: r := by
      simp [renderL]
    rw [hstream, hrv, List.cons_append, parseList.eq_def]
    simp only [if_neg hnc]
    rw [← List.cons_append, ← hrv, hv]
    simp [cbr]
  | fuel + 1, GoList.cons v (GoList.cons w rest), r, hf, hw => by
    obtain ⟨hwv, hwrest⟩ := wfL_cons_parts hw
    have hv : parseVal fuel
        (render v ++ ',' :: ' ' :: (renderL (GoList.cons w rest) ++ cbr :: r)) =
        some (v, ',' :: ' ' :: (renderL (GoList.cons w rest) ++ cbr :: r)) :=
      parseVal_render fuel v _
        (by simp [sizeL] at hf; have := sizeL_pos rest; have := sizeV_pos w; omega)
        hwv (Or.inl rfl)
    have hrest : parseList fuel (renderL (GoList.cons w rest) ++ cbr :: r) =
        some (GoList.cons w rest, r) :=
      parseList_render fuel (GoList.cons w rest) r
        (by simp [sizeL] at hf ⊢; have := sizeV_pos v; omega) hwrest
    obtain ⟨hc, tc, hrv, hnc⟩ := render_head v hwv
    have hstream : renderL (GoList.cons v (GoList.cons w rest)) ++ cbr :: r =
        render v ++ ',' :: ' ' :: (renderL (GoList.cons w rest) ++ cbr :: r) := by
      simp [renderL]
    rw [hstream, hrv, List.cons_append, parseList.eq_def]
    simp only [if_neg hnc]
    rw [← List.cons_append, ← hrv, hv]
    simp [hrest]

theorem parsePairs_render : ∀ (fuel : Nat) (ps : GoPairs) (r : List Char),
    sizeP ps < fuel → wfP ps = true →
    parsePairs fuel (renderP ps ++ cbr :: r) = some (ps, r)
  | 0, ps, _, hf, _ => absurd hf (by have := sizeP_pos ps; omega)
  | fuel + 1, GoPairs.nil, r, _, _ => by
    rw [show renderP GoPairs.nil ++ cbr :: r = cbr :: r from rfl, parsePairs.eq_def]
    simp
  | fuel + 1, GoPairs.cons k v GoPairs.nil, r, hf, hw => by
    obtain ⟨hwk, hwv, -⟩ := wfP_cons_parts hw
    have hk : parseVal fuel (render k ++ ':' :: ' ' :: (render v ++ cbr :: r)) =
        some (k, ':' :: ' ' :: (render v ++ cbr :: r)) :=
      parseVal_render fuel k _ (by simp [sizeP] at hf; have := sizeV_pos v; omega)
        hwk (Or.inr (Or.inr rfl))
    have hv : parseVal fuel (render v ++ cbr :: r) = some (v, cbr :: r) :=
      parseVal_render fuel v (cbr :: r) (by simp [sizeP] at hf; have := sizeV_pos k; omega)
        hwv (Or.inr (Or.inl rfl))
    obtain ⟨hc, tc, hrk, hnc⟩ := render_head k hwk
    have hstream : renderP (GoPairs.cons k v GoPairs.nil) ++ cbr :: r =
        render k ++ ':' :: ' ' :: (render v ++ cbr :: r) := by
      simp [renderP]
    rw [hstream, hrk, List.cons_append, parsePairs.eq_def]
    simp only [if_neg hnc]
    rw [← List.cons_append, ← hrk, hk]
    simp only [cbr] at hv ⊢
    simp [hv]
  | fuel + 1, GoPairs.cons k v (GoPairs.cons k2 v2 rest), r, hf, hw => by
    obtain ⟨hwk, hwv, hwrest⟩ := wfP_cons_parts hw
    have hk : parseVal fuel (render k ++ ':' :: ' ' ::
        (render v ++ ',' :: ' ' :: (renderP (GoPairs.cons k2 v2 rest) ++ cbr :: r))) =
        some (k, ':' :: ' ' ::
          (render v ++ ',' :: ' ' :: (renderP (GoPairs.cons k2 v2 rest) ++ cbr :: r))) :=
      parseVal_render fuel k _
        (by simp [sizeP] at hf; have := sizeV_pos v; have := sizeP_pos rest;
            have := sizeV_pos k2; have := sizeV_pos v2; omega)
        hwk (Or.inr (Or.inr rfl))
    have hv : parseVal fuel
        (render v ++ ',' :: ' ' :: (renderP (GoPairs.cons k2 v2 rest) ++ cbr :: r)) =
        some (v, ',' :: ' ' :: (renderP (GoPairs.cons k2 v2 rest) ++ cbr :: r)) :=
      parseVal_render fuel v _
        (by simp [sizeP] at hf; have := sizeV_pos k; have := sizeP_pos rest;
            have := sizeV_pos k2; have := sizeV_pos v2; omega)
        hwv (Or.inl rfl)
    have hrest : parsePairs fuel (renderP (GoPairs.cons k2 v2 rest) ++ cbr :: r) =
        some (GoPairs.cons k2 v2 rest, r) :=
      parsePairs_render fuel (GoPairs.cons k2 v2 rest) r
        (by simp [sizeP] at hf ⊢; have := sizeV_pos k; have := sizeV_pos v; omega) hwrest
    obtain ⟨hc, tc, hrk, hnc⟩ := render_head k hwk
    have hstream : renderP (GoPairs.cons k v (GoPairs.cons k2 v2 rest)) ++ cbr :: r =
        render k ++ ':' :: ' ' ::
          (render v ++ ',' :: ' ' :: (renderP (GoPairs.cons k2 v2 rest) ++ cbr :: r)) := by
      simp [renderP]
    rw [hstream, hrk, List.cons_append, parsePairs.eq_def]
    simp only [if_neg hnc]
    rw [← List.cons_append, ← hrk, hk]
    simp [hv, hrest]

end


/-- The canonical rendering is injective on well-formed values: parsing
is a left inverse of rendering. -/
theorem render_inj {v w : GoValue} (hv : wfV v = true) (hw : wfV w = true)
    (h : render v = render w) : v = w := by
  have h1 := parseVal_render (sizeV v + sizeV w + 1) v [] (by omega) hv trivial
  have h2 := parseVal_render (sizeV v + sizeV w + 1) w [] (by omega) hw trivial
  rw [List.append_nil] at h1 h2
  rw [h, h2] at h1
  injection h1 with h3
  injection h3 with h4 _
  exact h4.symm


theorem lenL_normalizeL : ∀ (hidden : List (List Char)) (om : Bool) (es : GoList),
    lenL (normalizeL hidden om es) = lenL es
  | _, _, GoList.nil => rfl
  | hidden, om, GoList.cons v rest => by
    simp [normalizeL, lenL, lenL_normalizeL hidden om rest]

theorem lenP_normalizeP : ∀ (hidden : List (List Char)) (om : Bool) (ps : GoPairs),
    lenP (normalizeP hidden om ps) = lenP ps
  | _, _, GoPairs.nil => rfl
  | hidden, om, GoPairs.cons k v rest => by
    simp [normalizeP, lenP, lenP_normalizeP hidden om rest]

theorem typeNameOf_normalize (hidden : List (List Char)) (om : Bool) (v : GoValue) :
    typeNameOf (normalize hidden om v) = typeNameOf v := by
  cases v with
  | nil => rfl
  | bytes d => rfl
  | str s => rfl
  | int n => rfl
  | strukt name f => rfl
  | slice ty isNil es => rfl
  | array ty es => simp [normalize, typeNameOf, lenL_normalizeL]
  | mapv kt vt isNil ps => rfl

theorem isEmptyVal_normalize (hidden : List (List Char)) (om : Bool) (v : GoValue) :
    isEmptyVal (normalize hidden om v) = isEmptyVal v := by
  cases v with
  | nil => rfl
  | bytes d => cases d <;> rfl
  | str s => rfl
  | int n => rfl
  | strukt name f => rfl
  | slice ty isNil es => rfl
  | array ty es => rfl
  | mapv kt vt isNil ps => rfl

mutual

theorem wfV_normalize : ∀ (hidden : List (List Char)) (om : Bool) (v : GoValue),
    wfV v = true → wfV (normalize hidden om v) = true
  | hidden, om, GoValue.nil, h => h
  | hidden, om, GoValue.bytes d, h => h
  | hidden, om, GoValue.str s, h => h
  | hidden, om, GoValue.int n, h => h
  | hidden, om, GoValue.strukt name f, h => by
    obtain ⟨hok, hwf⟩ := wfV_strukt_parts h
    rw [normalize, wfV]
    simp [hok, wfF_normalize hidden om f hwf]
  | hidden, om, GoValue.slice ty isNil es, h => by
    obtain ⟨hok, hty, hnil, hwl⟩ := wfV_slice_parts h
    rw [normalize, wfV]
    cases isNil with
    | true =>
      rw [hnil rfl]
      simp [hok, hty, normalizeL, lenL, wfL]
    | false =>
      simp [hok, hty, wfL_normalize hidden om es hwl]
  | hidden, om, GoValue.array ty es, h => by
    obtain ⟨hok, hwl⟩ := wfV_array_parts h
    rw [normalize, wfV]
    simp [hok, wfL_normalize hidden om es hwl]
  | hidden, om, GoValue.mapv kt vt isNil ps, h => by
    obtain ⟨hkt, hvt, hnil, hwp⟩ := wfV_mapv_parts h
    rw [normalize, wfV]
    cases isNil with
    | true =>
      rw [hnil rfl]
      simp [hkt, hvt, normalizeP, lenP, wfP]
    | false =>
      simp [hkt, hvt, wfP_normalize hidden om ps hwp]

theorem wfF_normalize : ∀ (hidden : List (List Char)) (om : Bool) (f : GoFields),
    wfF f = true → wfF (normalizeF hidden om f) = true
  | hidden, om, GoFields.nil, h => h
  | hidden, om, GoFields.cons fname v rest, h => by
    obtain ⟨hok, hwv, hwrest⟩ := wfF_cons_parts h
    rw [normalizeF]
    by_cases hc : (hidden.contains (typeNameOf v) || (om && isEmptyVal v)) = true
    · rw [if_pos hc]
      exact wfF_normalize hidden om rest hwrest
    · rw [if_neg hc, wfF]
      simp [hok, wfV_normalize hidden om v hwv, wfF_normalize hidden om rest hwrest]

theorem wfL_normalize : ∀ (hidden : List (List Char)) (om : Bool) (es : GoList),
    wfL es = true → wfL (normalizeL hidden om es) = true
  | hidden, om, GoList.nil, h => h
  | hidden, om, GoList.cons v rest, h => by
    obtain ⟨hwv, hwrest⟩ := wfL_cons_parts h
    rw [normalizeL, wfL]
    simp [wfV_normalize hidden om v hwv, wfL_normalize hidden om rest hwrest]

theorem wfP_normalize : ∀ (hidden : List (List Char)) (om : Bool) (ps : GoPairs),
    wfP ps = true → wfP (normalizeP hidden om ps) = true
  | hidden, om, GoPairs.nil, h => h
  | hidden, om, GoPairs.cons k v rest, h => by
    obtain ⟨hwk, hwv, hwrest⟩ := wfP_cons_parts h
    rw [normalizeP, wfP]
    simp [wfV_normalize hidden om k hwk, wfV_normalize hidden om v hwv,
      wfP_normalize hidden om rest hwrest]

end

mutual

theorem normalize_append_hide :
    ∀ (hidden : List (List Char)) (t : List Char) (om : Bool) (v : GoValue),
    normalize (hidden ++ [t]) om v = normalize [t] false (normalize hidden om v)
  | hidden, t, om, GoValue.nil => rfl
  | hidden, t, om, GoValue.bytes d => rfl
  | hidden, t, om, GoValue.str s => rfl
  | hidden, t, om, GoValue.int n => rfl
  | hidden, t, om, GoValue.strukt name f => by
    rw [normalize, normalize, normalize]
    rw [normalizeF_append_hide hidden t om f]
  | hidden, t, om, GoValue.slice ty isNil es => by
    rw [normalize, normalize, normalize]
    rw [normalizeL_append_hide hidden t om es]
  | hidden, t, om, GoValue.array ty es => by
    rw [normalize, normalize, normalize]
    rw [normalizeL_append_hide hidden t om es]
  | hidden, t, om, GoValue.mapv kt vt isNil ps => by
    rw [normalize, normalize, normalize]
    rw [normalizeP_append_hide hidden t om ps]

theorem normalizeF_append_hide :
    ∀ (hidden : List (List Char)) (t : List Char) (om : Bool) (f : GoFields),
    normalizeF (hidden ++ [t]) om f = normalizeF [t] false (normalizeF hidden om f)
  | hidden, t, om, GoFields.nil => rfl
  | hidden, t, om, GoFields.cons fname v rest => by
    have hca : (hidden ++ [t]).contains (typeNameOf v) =
        (hidden.contains (typeNameOf v) || [t].contains (typeNameOf v)) := by
      induction hidden with
      | nil => simp
      | cons a l ih => simp [List.contains_cons, ih, Bool.or_assoc]
    rw [normalizeF, normalizeF]
    by_cases h1 : (hidden.contains (typeNameOf v) || (om && isEmptyVal v)) = true
    · rw [if_pos h1]
      rw [if_pos (show ((hidden ++ [t]).contains (typeNameOf v) ||
          (om && isEmptyVal v)) = true by
        simp only [hca, Bool.or_eq_true] at h1 ⊢
        tauto)]
      exact normalizeF_append_hide hidden t om rest
    · rw [if_neg h1]
      by_cases h2 : ([t].contains (typeNameOf v)) = true
      · rw [if_pos (show ((hidden ++ [t]).contains (typeNameOf v) ||
            (om && isEmptyVal v)) = true by
          simp only [hca, Bool.or_eq_true]
          tauto)]
        rw [normalizeF]
        rw [if_pos (show (([t]).contains (typeNameOf (normalize hidden om v)) ||
            (false && isEmptyVal (normalize hidden om v))) = true by
          simp only [typeNameOf_normalize, Bool.false_and, Bool.or_false]
          exact h2)]
        exact normalizeF_append_hide hidden t om rest
      · rw [if_neg (show ¬(((hidden ++ [t]).contains (typeNameOf v) ||
            (om && isEmptyVal v)) = true) by
          simp only [hca, Bool.or_eq_true] at h1 ⊢
          tauto)]
        rw [normalizeF]
        rw [if_neg (show ¬((([t]).contains (typeNameOf (normalize hidden om v)) ||
            (false && isEmptyVal (normalize hidden om v))) = true) by
          simp only [typeNameOf_normalize, Bool.false_and, Bool.or_false]
          exact h2)]
        rw [normalize_append_hide hidden t om v]
        rw [normalizeF_append_hide hidden t om rest]

theorem normalizeL_append_hide :
    ∀ (hidden : List (List Char)) (t : List Char) (om : Bool) (es : GoList),
    normalizeL (hidden ++ [t]) om es = normalizeL [t] false (normalizeL hidden om es)
  | hidden, t, om, GoList.nil => rfl
  | hidden, t, om, GoList.cons v rest => by
    rw [normalizeL, normalizeL, normalizeL]
    rw [normalize_append_hide hidden t om v, normalizeL_append_hide hidden t om rest]

theorem normalizeP_append_hide :
    ∀ (hidden : List (List Char)) (t : List Char) (om : Bool) (ps : GoPairs),
    normalizeP (hidden ++ [t]) om ps = normalizeP [t] false (normalizeP hidden om ps)
  | hidden, t, om, GoPairs.nil => rfl
  | hidden, t, om, GoPairs.cons k v rest => by
    rw [normalizeP, normalizeP, normalizeP]
    rw [normalize_append_hide hidden t om k, normalize_append_hide hidden t om v,
      normalizeP_append_hide hidden t om rest]

end


/-! ### Option expansion and the equality characterizations -/

theorem expand_append_exclude (O : List CompareOption) (t : List Char) :
    expandCompareOptions (O ++ [Exclude t]) =
      expandCompareOptions O ++ [ReprOption.hide t] := by
  simp [expandCompareOptions, Exclude]

theorem hiddenOf_append_hide (ropts : List ReprOption) (t : List Char) :
    hiddenOf (ropts ++ [ReprOption.hide t]) = hiddenOf ropts ++ [t] := by
  simp [hiddenOf]

theorem omitOf_append_hide (ropts : List ReprOption) (t : List Char) :
    omitOf (ropts ++ [ReprOption.hide t]) = omitOf ropts := by
  simp [omitOf]

theorem reprString_append_exclude (v : GoValue) (O : List CompareOption) (t : List Char) :
    reprString v (expandCompareOptions (O ++ [Exclude t])) =
      render (normalize [t] false
        (normalize (hiddenOf (expandCompareOptions O)) (omitOf (expandCompareOptions O)) v)) := by
  rw [reprString, expand_append_exclude, hiddenOf_append_hide, omitOf_append_hide,
    normalize_append_hide]

theorem isNilValue_false_parts {a b : GoValue}
    (h : ¬((isNilValue a || isNilValue b) = true)) :
    isNilValue a = false ∧ isNilValue b = false := by
  simp only [Bool.or_eq_true] at h
  constructor
  · cases ha : isNilValue a with
    | false => rfl
    | true => exact absurd (Or.inl ha) h
  · cases hb : isNilValue b with
    | false => rfl
    | true => exact absurd (Or.inr hb) h

theorem isBytes_bytes {a : GoValue} (h : isBytes a = true) : ∃ d, a = GoValue.bytes d := by
  cases a <;> simp [isBytes] at h ⊢

theorem isStr_str {a : GoValue} (h : isStr a = true) : ∃ s, a = GoValue.str s := by
  cases a <;> simp [isStr] at h ⊢

theorem objectsAreEqual_nil {a b : GoValue} (O : List CompareOption)
    (h : (isNilValue a || isNilValue b) = true) :
    objectsAreEqual a b O = (isNilValue a && isNilValue b) := by
  rw [objectsAreEqual.eq_def, if_pos h]

theorem objectsAreEqual_bytes (d1 d2 : Option (List Nat)) (O : List CompareOption) :
    objectsAreEqual (GoValue.bytes d1) (GoValue.bytes d2) O = bytesEqual d1 d2 := rfl

theorem objectsAreEqual_str (s1 s2 : String) (O : List CompareOption) :
    objectsAreEqual (GoValue.str s1) (GoValue.str s2) O = (s1 == s2) := rfl

theorem objectsAreEqual_generic {a b : GoValue} (O : List CompareOption)
    (hna : isNilValue a = false) (hnb : isNilValue b = false)
    (hb : (isBytes a && isBytes b) = false) (hs : (isStr a && isStr b) = false) :
    objectsAreEqual a b O =
      (reprString a (expandCompareOptions O) == reprString b (expandCompareOptions O)) := by
  cases a <;> cases b <;>
    first
      | rfl
      | (simp [isNilValue] at hna; done)
      | (simp [isNilValue] at hnb; done)
      | (simp [isBytes] at hb; done)
      | (simp [isStr] at hs; done)


/-! ### Symmetry and fast-path helpers -/

theorem beq_symm_eq {α : Type _} [BEq α] [LawfulBEq α] (x y : α) : (x == y) = (y == x) := by
  rw [Bool.eq_iff_iff]
  simp only [beq_iff_eq]
  exact ⟨Eq.symm, Eq.symm⟩

/-! ### Claim theorems -/

/-- C2: when both arguments are byte sequences, equal compares them
byte-for-byte; in particular an empty byte sequence equals a nil one,
equal byte contents are equal, and different contents are not — for any
option list. -/
theorem c2_byte_fast_path (O : List CompareOption) (d1 d2 : Option (List Nat)) :
    objectsAreEqual (GoValue.bytes d1) (GoValue.bytes d2) O = (d1.getD [] == d2.getD []) ∧
    objectsAreEqual (GoValue.bytes (some [])) (GoValue.bytes none) O = true ∧
    objectsAreEqual (GoValue.bytes (some [4, 2])) (GoValue.bytes (some [4, 2])) O = true ∧
    objectsAreEqual (GoValue.bytes (some [2, 4])) (GoValue.bytes (some [4, 2])) O = false :=
  ⟨rfl, rfl, rfl, rfl⟩

/-- C6: equality is symmetric — objectsAreEqual gives the same answer
with its arguments swapped, for every pair of values and option list,
across the nil, byte, text and generic rendering paths. -/
theorem c6_symmetry (a b : GoValue) (O : List CompareOption) :
    objectsAreEqual a b O = objectsAreEqual b a O := by
  by_cases hn : (isNilValue a || isNilValue b) = true
  · rw [objectsAreEqual_nil O hn, objectsAreEqual_nil O (by rw [Bool.or_comm] at hn; exact hn),
      Bool.and_comm]
  · obtain ⟨hna, hnb⟩ := isNilValue_false_parts hn
    have hn2 : ¬((isNilValue b || isNilValue a) = true) := by simp [hna, hnb]
    by_cases hbb : (isBytes a && isBytes b) = true
    · simp only [Bool.and_eq_true] at hbb
      obtain ⟨h1, h2⟩ := hbb
      obtain ⟨d1, rfl⟩ := isBytes_bytes h1
      obtain ⟨d2, rfl⟩ := isBytes_bytes h2
      rw [objectsAreEqual_bytes, objectsAreEqual_bytes, bytesEqual, bytesEqual, beq_symm_eq]
    · by_cases hss : (isStr a && isStr b) = true
      · simp only [Bool.and_eq_true] at hss
        obtain ⟨h1, h2⟩ := hss
        obtain ⟨s1, rfl⟩ := isStr_str h1
        obtain ⟨s2, rfl⟩ := isStr_str h2
        rw [objectsAreEqual_str, objectsAreEqual_str, beq_symm_eq]
      · have hbb2 : (isBytes b && isBytes a) = false := by
          rw [Bool.and_comm]
          exact Bool.not_eq_true _ ▸ hbb
        have hss2 : (isStr b && isStr a) = false := by
          rw [Bool.and_comm]
          exact Bool.not_eq_true _ ▸ hss
        rw [objectsAreEqual_generic O hna hnb (Bool.not_eq_true _ ▸ hbb) (Bool.not_eq_true _ ▸ hss),
          objectsAreEqual_generic O hnb hna hbb2 hss2, beq_symm_eq]

/-- C9: comparison options never influence the result on fast-path
inputs — when either value is nil, or both are byte sequences, or both
are text, any two option lists give the same answer, because the fast
paths are decided before options are consulted. -/
theorem c9_options_inert_on_fast_paths (a b : GoValue) (O1 O2 : List CompareOption)
    (h : isNilValue a = true ∨ isNilValue b = true ∨
      (isBytes a = true ∧ isBytes b = true) ∨ (isStr a = true ∧ isStr b = true)) :
    objectsAreEqual a b O1 = objectsAreEqual a b O2 := by
  rcases h with h | h | ⟨h1, h2⟩ | ⟨h1, h2⟩
  · rw [objectsAreEqual_nil O1 (by simp [h]), objectsAreEqual_nil O2 (by simp [h])]
  · rw [objectsAreEqual_nil O1 (by simp [h]), objectsAreEqual_nil O2 (by simp [h])]
  · obtain ⟨d1, rfl⟩ := isBytes_bytes h1
    obtain ⟨d2, rfl⟩ := isBytes_bytes h2
    rw [objectsAreEqual_bytes, objectsAreEqual_bytes]
  · obtain ⟨s1, rfl⟩ := isStr_str h1
    obtain ⟨s2, rfl⟩ := isStr_str h2
    rw [objectsAreEqual_str, objectsAreEqual_str]

/-- C9 witness: at nil versus a record, with no options versus an
Exclude option, the results agree. -/
theorem c9_witness :
    (isNilValue GoValue.nil = true ∨ isNilValue (GoValue.int 7) = true ∨
      (isBytes GoValue.nil = true ∧ isBytes (GoValue.int 7) = true) ∨
      (isStr GoValue.nil = true ∧ isStr (GoValue.int 7) = true)) ∧
    objectsAreEqual GoValue.nil (GoValue.int 7) [] =
      objectsAreEqual GoValue.nil (GoValue.int 7) [Exclude ("int64".data)] :=
  ⟨Or.inl rfl, c9_options_inert_on_fast_paths GoValue.nil (GoValue.int 7) []
    [Exclude ("int64".data)] (Or.inl rfl)⟩

/-- C3: Exclude is monotone — if two values are equal under an option
list, they remain equal after appending an Exclude option for any type,
for well-formed values: excluding fields can never turn equal values
unequal. -/
theorem c3_exclude_monotonic (a b : GoValue) (O : List CompareOption) (t : List Char)
    (hwa : wfV a = true) (hwb : wfV b = true)
    (h : objectsAreEqual a b O = true) :
    objectsAreEqual a b (O ++ [Exclude t]) = true := by
  by_cases hn : (isNilValue a || isNilValue b) = true
  · rw [objectsAreEqual_nil _ hn] at h ⊢
    exact h
  · obtain ⟨hna, hnb⟩ := isNilValue_false_parts hn
    by_cases hbb : (isBytes a && isBytes b) = true
    · simp only [Bool.and_eq_true] at hbb
      obtain ⟨h1, h2⟩ := hbb
      obtain ⟨d1, rfl⟩ := isBytes_bytes h1
      obtain ⟨d2, rfl⟩ := isBytes_bytes h2
      rw [objectsAreEqual_bytes] at h ⊢
      exact h
    · by_cases hss : (isStr a && isStr b) = true
      · simp only [Bool.and_eq_true] at hss
        obtain ⟨h1, h2⟩ := hss
        obtain ⟨s1, rfl⟩ := isStr_str h1
        obtain ⟨s2, rfl⟩ := isStr_str h2
        rw [objectsAreEqual_str] at h ⊢
        exact h
      · have hbf := Bool.not_eq_true _ ▸ hbb
        have hsf := Bool.not_eq_true _ ▸ hss
        rw [objectsAreEqual_generic O hna hnb hbf hsf] at h
        rw [objectsAreEqual_generic (O ++ [Exclude t]) hna hnb hbf hsf]
        have heq : normalize (hiddenOf (expandCompareOptions O))
            (omitOf (expandCompareOptions O)) a =
            normalize (hiddenOf (expandCompareOptions O))
              (omitOf (expandCompareOptions O)) b :=
          render_inj (wfV_normalize _ _ _ hwa) (wfV_normalize _ _ _ hwb) (beq_iff_eq.mp h)
        rw [reprString_append_exclude, reprString_append_exclude, heq]
        simp

/-- C3 witness: two records equal after excluding the int64 field stay
equal when a further Exclude is appended. -/
theorem c3_witness :
    (wfV (GoValue.strukt ("Data".data)
      (GoFields.cons ("Num".data) (GoValue.int 1) GoFields.nil)) = true) ∧
    objectsAreEqual
      (GoValue.strukt ("Data".data) (GoFields.cons ("Num".data) (GoValue.int 1) GoFields.nil))
      (GoValue.strukt ("Data".data) (GoFields.cons ("Num".data) (GoValue.int 2) GoFields.nil))
      [Exclude ("int64".data)] = true ∧
    objectsAreEqual
      (GoValue.strukt ("Data".data) (GoFields.cons ("Num".data) (GoValue.int 1) GoFields.nil))
      (GoValue.strukt ("Data".data) (GoFields.cons ("Num".data) (GoValue.int 2) GoFields.nil))
      ([Exclude ("int64".data)] ++ [Exclude ("string".data)]) = true :=
  ⟨by decide, by decide,
    c3_exclude_monotonic _ _ [Exclude ("int64".data)] ("string".data)
      (by decide) (by decide) (by decide)⟩


/-! ### Splitting and joining newline-separated lines -/

theorem splitOnNl_ne_nil (s : List Char) : splitOnNl s ≠ [] := by
  cases s with
  | nil => simp [splitOnNl]
  | cons c cs =>
    rw [splitOnNl]
    cases splitOnNl cs with
    | nil => simp
    | cons l ls =>
      by_cases h : c = '\n' <;> simp [h]

theorem splitOnNl_single {l : List Char} (h : '\n' ∉ l) : splitOnNl l = [l] := by
  induction l with
  | nil => rfl
  | cons c cs ih =>
    have hc : ¬(c = '\n') := fun he => h (he ▸ List.mem_cons_self c cs)
    have hcs : '\n' ∉ cs := fun he => h (List.mem_cons_of_mem c he)
    rw [splitOnNl, ih hcs]
    simp [hc]

theorem splitOnNl_append {l : List Char} (rest : List Char) (h : '\n' ∉ l) :
    splitOnNl (l ++ '\n' :: rest) = l :: splitOnNl rest := by
  induction l with
  | nil =>
    rw [List.nil_append, splitOnNl]
    cases hs : splitOnNl rest with
    | nil => exact absurd hs (splitOnNl_ne_nil rest)
    | cons l0 ls => simp
  | cons c cs ih =>
    have hc : ¬(c = '\n') := fun he => h (he ▸ List.mem_cons_self c cs)
    have hcs : '\n' ∉ cs := fun he => h (List.mem_cons_of_mem c he)
    rw [List.cons_append, splitOnNl, ih hcs]
    simp [hc]

theorem splitOnNl_joinNl : ∀ (L : List (List Char)), L ≠ [] →
    (∀ l ∈ L, '\n' ∉ l) → splitOnNl (joinNl L) = L
  | [], h, _ => absurd rfl h
  | [l], _, hm => by
    rw [joinNl, splitOnNl_single (hm l (List.mem_singleton_self l))]
  | l :: l2 :: ls, _, hm => by
    rw [show joinNl (l :: l2 :: ls) = l ++ '\n' :: joinNl (l2 :: ls) from rfl]
    rw [splitOnNl_append _ (hm l (List.mem_cons_self _ _))]
    rw [splitOnNl_joinNl (l2 :: ls) (by simp) (fun x hx => hm x (List.mem_cons_of_mem l hx))]

theorem splitOnNl_no_nl (s : List Char) : ∀ l ∈ splitOnNl s, '\n' ∉ l := by
  induction s with
  | nil =>
    intro l hl
    simp [splitOnNl] at hl
    simp [hl]
  | cons c cs ih =>
    intro l hl
    rw [splitOnNl] at hl
    cases hs : splitOnNl cs with
    | nil => exact absurd hs (splitOnNl_ne_nil cs)
    | cons l0 ls =>
      rw [hs] at hl
      by_cases hc : c = '\n'
      · subst hc
        simp at hl
        rcases hl with h | h | h
        · simp [h]
        · rw [h]
          exact ih l0 (hs ▸ List.mem_cons_self l0 ls)
        · exact ih l (hs ▸ List.mem_cons_of_mem l0 h)
      · simp [hc] at hl
        rcases hl with h | h
        · subst h
          intro hmem
          rcases List.mem_cons.mp hmem with h | h
          · exact hc h.symm
          · exact ih l0 (hs ▸ List.mem_cons_self l0 ls) h
        · exact ih l (hs ▸ List.mem_cons_of_mem l0 h)

theorem joinNl_cons_ne_nil {x : List Char} (rest : List (List Char)) (h : x ≠ []) :
    joinNl (x :: rest) ≠ [] := by
  cases rest with
  | nil => simpa [joinNl] using h
  | cons y ys =>
    rw [show joinNl (x :: y :: ys) = x ++ '\n' :: joinNl (y :: ys) from rfl]
    simp

/-! ### The diff body: emptiness characterizes equal inputs -/

theorem natReprChars_no_nl (n : Nat) : '\n' ∉ natReprChars n := by
  intro h
  have := natReprChars_all_digits n '\n' h
  simp at this

theorem diffBody_eq_nil_iff (a b : List Char) : diffBody a b = [] ↔ a = b := by
  constructor
  · intro h
    by_contra hne
    rw [diffBody] at h
    have hedits : computeEdits a b = some (splitOnNl a, splitOnNl b) := by
      rw [computeEdits, if_neg hne]
    rw [unifiedChars, hedits] at h
    set L := ["--- expected.txt".data, "+++ actual.txt".data,
      "@@ -1,".data ++ natReprChars (splitOnNl a).length ++ " +1,".data ++
        natReprChars (splitOnNl b).length ++ " @@".data] ++
      (splitOnNl a).map (fun l => '-' :: l) ++ (splitOnNl b).map (fun l => '+' :: l) ++ [[]]
      with hL
    have hmem : ∀ l ∈ L, '\n' ∉ l := by
      intro l hl
      rw [hL] at hl
      simp only [List.append_assoc, List.cons_append, List.nil_append, List.mem_cons,
        List.mem_append, List.mem_map, List.mem_singleton] at hl
      rcases hl with h | h | h | ⟨x, hx, h⟩ | ⟨x, hx, h⟩ | h
      · subst h; decide
      · subst h; decide
      · subst h
        intro hmem
        simp only [List.mem_cons, List.mem_append] at hmem
        rcases hmem with h | h | h | h | h | h | h | h | h | h | h | h | h | h | h | h
        · simp at h
        · simp at h
        · simp at h
        · simp at h
        · simp at h
        · simp at h
        · exact natReprChars_no_nl _ h
        · simp at h
        · simp at h
        · simp at h
        · simp at h
        · exact natReprChars_no_nl _ h
        · simp at h
        · simp at h
        · simp at h
        · simp at h
      · subst h
        intro hmem
        rcases List.mem_cons.mp hmem with h | h
        · simp at h
        · exact splitOnNl_no_nl a x hx h
      · subst h
        intro hmem
        rcases List.mem_cons.mp hmem with h | h
        · simp at h
        · exact splitOnNl_no_nl b x hx h
      · rcases h with h | h
        · simp [h]
        · simp at h
    have hsplit : splitOnNl (joinNl L) = L := splitOnNl_joinNl L (by rw [hL]; simp) hmem
    rw [hsplit] at h
    have hlen : ¬(L.length < 3) := by
      rw [hL]
      simp
    rw [if_neg hlen] at h
    obtain ⟨da, das, hda⟩ : ∃ x xs, splitOnNl a = x :: xs := by
      cases hsa : splitOnNl a with
      | nil => exact absurd hsa (splitOnNl_ne_nil a)
      | cons x xs => exact ⟨x, xs, rfl⟩
    rw [hL] at h
    rw [hda] at h
    simp only [List.map_cons, List.cons_append, List.nil_append, List.drop] at h
    exact joinNl_cons_ne_nil _ (by simp) h
  · intro h
    subst h
    rw [diffBody, unifiedChars, computeEdits]
    simp [splitOnNl]


/-! ### Diff characterizations and the equality/diff coherence claim -/

theorem isStr_normalize (hidden : List (List Char)) (om : Bool) (v : GoValue) :
    isStr (normalize hidden om v) = isStr v := by
  cases v <;> rfl

theorem isBytes_normalize (hidden : List (List Char)) (om : Bool) (v : GoValue) :
    isBytes (normalize hidden om v) = isBytes v := by
  cases v <;> rfl

theorem isNilValue_normalize (hidden : List (List Char)) (om : Bool) (v : GoValue) :
    isNilValue (normalize hidden om v) = isNilValue v := by
  cases v <;> rfl

theorem isNilValue_val {a : GoValue} (h : isNilValue a = true) : a = GoValue.nil := by
  cases a <;> simp [isNilValue] at h ⊢

theorem Diff_str_str (l r : String) (O : List CompareOption) :
    Diff (GoValue.str l) (GoValue.str r) O =
      some (String.mk (diffBody (l.data ++ ['\n']) (r.data ++ ['\n']))) := rfl

theorem Diff_str_nonstr (l : String) {b : GoValue} (hb : isStr b = false)
    (O : List CompareOption) : Diff (GoValue.str l) b O = none := by
  cases b <;> first | rfl | simp [isStr] at hb

theorem Diff_nonstr {a : GoValue} (b : GoValue) (ha : isStr a = false)
    (O : List CompareOption) :
    Diff a b O = some (String.mk (diffBody
      (reprString a (expandCompareOptions O) ++ ['\n'])
      (reprString b (expandCompareOptions O) ++ ['\n']))) := by
  cases a <;> first | rfl | simp [isStr] at ha

theorem stringMk_eq_empty_iff (x : List Char) : (String.mk x = "") ↔ x = [] := by
  constructor
  · intro h
    have := congrArg String.data h
    simpa using this
  · intro h
    subst h
    rfl

theorem reprString_eq_imp {a b : GoValue} (ropts : List ReprOption)
    (hwa : wfV a = true) (hwb : wfV b = true)
    (h : reprString a ropts = reprString b ropts) :
    normalize (hiddenOf ropts) (omitOf ropts) a =
      normalize (hiddenOf ropts) (omitOf ropts) b :=
  render_inj (wfV_normalize _ _ _ hwa) (wfV_normalize _ _ _ hwb) h

/-- C1 (counterexample): the claim as stated fails — an empty byte
sequence and the nil byte sequence are equal under the byte fast path,
yet their canonical renderings differ, so the diff is not empty. -/
theorem c1_counterexample :
    objectsAreEqual (GoValue.bytes (some [])) (GoValue.bytes none) [] = true ∧
    ¬(Diff (GoValue.bytes (some [])) (GoValue.bytes none) [] = some "") := by
  constructor
  · rfl
  · decide

/-- C1 (amended): equal(a, b, O) is true exactly when diff(a, b, O)
returns an empty result, for all well-formed values except the pair of
an empty byte sequence with the nil byte sequence (in either order),
where the byte fast path judges them equal although their canonical
renderings differ. -/
theorem c1_equal_iff_diff_empty (a b : GoValue) (O : List CompareOption)
    (hwa : wfV a = true) (hwb : wfV b = true) (hex : ¬c1Exception a b) :
    (objectsAreEqual a b O = true ↔ Diff a b O = some "") := by
  by_cases hsa : isStr a = true
  · obtain ⟨s1, rfl⟩ := isStr_str hsa
    by_cases hsb : isStr b = true
    · obtain ⟨s2, rfl⟩ := isStr_str hsb
      rw [objectsAreEqual_str, Diff_str_str]
      constructor
      · intro h
        have hs : s1 = s2 := beq_iff_eq.mp h
        subst hs
        have hd : diffBody (s1.data ++ ['\n']) (s1.data ++ ['\n']) = [] :=
          (diffBody_eq_nil_iff _ _).mpr rfl
        rw [hd]
      · intro h
        injection h with h
        have hx := (diffBody_eq_nil_iff _ _).mp ((stringMk_eq_empty_iff _).mp h)
        have hdat : s1.data = s2.data := by simpa using hx
        have hs : s1 = s2 := by
          cases s1
          cases s2
          exact congrArg String.mk hdat
        simp [hs]
    · have hbf : isStr b = false := Bool.not_eq_true _ ▸ hsb
      rw [Diff_str_nonstr s1 hbf]
      constructor
      · intro h
        exfalso
        by_cases hnb : isNilValue b = true
        · rw [objectsAreEqual_nil O (by simp [hnb])] at h
          simp [isNilValue] at h
        · have hnb2 : isNilValue b = false := Bool.not_eq_true _ ▸ hnb
          rw [objectsAreEqual_generic O (show isNilValue (GoValue.str s1) = false from rfl)
            hnb2 (by simp [isBytes]) (by simp [hbf])] at h
          have heq := reprString_eq_imp _ hwa hwb (beq_iff_eq.mp h)
          have hc : isStr (normalize (hiddenOf (expandCompareOptions O))
              (omitOf (expandCompareOptions O)) (GoValue.str s1)) =
              isStr (normalize (hiddenOf (expandCompareOptions O))
                (omitOf (expandCompareOptions O)) b) := by rw [heq]
          rw [isStr_normalize, isStr_normalize, hbf] at hc
          simp [isStr] at hc
      · intro h
        cases h
  · have haf : isStr a = false := Bool.not_eq_true _ ▸ hsa
    rw [Diff_nonstr b haf O]
    have key : (some (String.mk (diffBody
        (reprString a (expandCompareOptions O) ++ ['\n'])
        (reprString b (expandCompareOptions O) ++ ['\n']))) = some (("") : String)) ↔
        reprString a (expandCompareOptions O) = reprString b (expandCompareOptions O) := by
      rw [Option.some.injEq, stringMk_eq_empty_iff, diffBody_eq_nil_iff]
      simp
    rw [key]
    by_cases hn : (isNilValue a || isNilValue b) = true
    · rw [objectsAreEqual_nil O hn]
      by_cases hna : isNilValue a = true
      · have ha : a = GoValue.nil := isNilValue_val hna
        subst ha
        by_cases hnb : isNilValue b = true
        · have hb : b = GoValue.nil := isNilValue_val hnb
          subst hb
          simp [isNilValue]
        · have hnb2 : isNilValue b = false := Bool.not_eq_true _ ▸ hnb
          rw [hnb2]
          constructor
          · intro h
            simp at h
          · intro h
            exfalso
            have heq := reprString_eq_imp _ hwa hwb h
            have hc : isNilValue (normalize (hiddenOf (expandCompareOptions O))
                (omitOf (expandCompareOptions O)) GoValue.nil) =
                isNilValue (normalize (hiddenOf (expandCompareOptions O))
                  (omitOf (expandCompareOptions O)) b) := by rw [heq]
            rw [isNilValue_normalize, isNilValue_normalize, hnb2] at hc
            simp [isNilValue] at hc
      · have hna2 : isNilValue a = false := Bool.not_eq_true _ ▸ hna
        have hnb : isNilValue b = true := by
          rcases Bool.or_eq_true _ _ ▸ hn with h | h
          · exact absurd h hna
          · exact h
        have hb : b = GoValue.nil := isNilValue_val hnb
        subst hb
        rw [hna2]
        constructor
        · intro h
          simp at h
        · intro h
          exfalso
          have heq := reprString_eq_imp _ hwa hwb h
          have hc : isNilValue (normalize (hiddenOf (expandCompareOptions O))
              (omitOf (expandCompareOptions O)) a) =
              isNilValue (normalize (hiddenOf (expandCompareOptions O))
                (omitOf (expandCompareOptions O)) GoValue.nil) := by rw [heq]
          rw [isNilValue_normalize, isNilValue_normalize, hna2] at hc
          simp [isNilValue] at hc
    · obtain ⟨hna, hnb⟩ := isNilValue_false_parts hn
      by_cases hbb : (isBytes a && isBytes b) = true
      · simp only [Bool.and_eq_true] at hbb
        obtain ⟨h1, h2⟩ := hbb
        obtain ⟨d1, rfl⟩ := isBytes_bytes h1
        obtain ⟨d2, rfl⟩ := isBytes_bytes h2
        rw [objectsAreEqual_bytes]
        constructor
        · intro h
          rw [bytesEqual] at h
          have hco : d1.getD [] = d2.getD [] := beq_iff_eq.mp h
          have hd : d1 = d2 := by
            cases d1 with
            | none =>
              cases d2 with
              | none => rfl
              | some y =>
                exfalso
                apply hex
                right
                simp at hco
                exact ⟨rfl, by rw [← hco]⟩
            | some x =>
              cases d2 with
              | none =>
                exfalso
                apply hex
                left
                simp at hco
                exact ⟨by rw [hco], rfl⟩
              | some y =>
                simp at hco
                rw [hco]
          rw [hd]
        · intro h
          have heq := reprString_eq_imp _ hwa hwb h
          have hd : GoValue.bytes d1 = GoValue.bytes d2 := heq
          injection hd with hd
          rw [hd, bytesEqual]
          simp
      · rw [objectsAreEqual_generic O hna hnb (Bool.not_eq_true _ ▸ hbb) (by simp [haf])]
        exact beq_iff_eq

/-- C1 (amended) witness: two distinct numbers are unequal and their
diff is not empty; the hypotheses hold at this input. -/
theorem c1_witness :
    wfV (GoValue.int 1) = true ∧ wfV (GoValue.int 2) = true ∧
    ¬c1Exception (GoValue.int 1) (GoValue.int 2) ∧
    (objectsAreEqual (GoValue.int 1) (GoValue.int 2) [] = true ↔
      Diff (GoValue.int 1) (GoValue.int 2) [] = some "") :=
  ⟨rfl, rfl, by simp [c1Exception],
    c1_equal_iff_diff_empty (GoValue.int 1) (GoValue.int 2) [] rfl rfl
      (by simp [c1Exception])⟩


/-! ### The unified formatting drops exactly its three header lines -/

theorem splitOnNl_unifiedChars {a b : List Char} (hne : ¬(a = b)) :
    splitOnNl (unifiedChars a b) =
      "--- expected.txt".data :: "+++ actual.txt".data ::
        ("@@ -1,".data ++ natReprChars (splitOnNl a).length ++ " +1,".data ++
          natReprChars (splitOnNl b).length ++ " @@".data) ::
        ((splitOnNl a).map (fun l => '-' :: l) ++ (splitOnNl b).map (fun l => '+' :: l) ++
          [[]]) := by
  have hedits : computeEdits a b = some (splitOnNl a, splitOnNl b) := by
    rw [computeEdits, if_neg hne]
  rw [unifiedChars, hedits]
  set L := ["--- expected.txt".data, "+++ actual.txt".data,
    "@@ -1,".data ++ natReprChars (splitOnNl a).length ++ " +1,".data ++
      natReprChars (splitOnNl b).length ++ " @@".data] ++
    (splitOnNl a).map (fun l => '-' :: l) ++ (splitOnNl b).map (fun l => '+' :: l) ++ [[]]
    with hL
  have hmem : ∀ l ∈ L, '\n' ∉ l := by
    intro l hl
    rw [hL] at hl
    simp only [List.append_assoc, List.cons_append, List.nil_append, List.mem_cons,
      List.mem_append, List.mem_map, List.mem_singleton] at hl
    rcases hl with h | h | h | ⟨x, hx, h⟩ | ⟨x, hx, h⟩ | h
    · subst h; decide
    · subst h; decide
    · subst h
      intro hmem
      simp only [List.mem_cons, List.mem_append] at hmem
      rcases hmem with h | h | h | h | h | h | h | h | h | h | h | h | h | h | h | h
      · simp at h
      · simp at h
      · simp at h
      · simp at h
      · simp at h
      · simp at h
      · exact natReprChars_no_nl _ h
      · simp at h
      · simp at h
      · simp at h
      · simp at h
      · exact natReprChars_no_nl _ h
      · simp at h
      · simp at h
      · simp at h
      · simp at h
    · subst h
      intro hmem
      rcases List.mem_cons.mp hmem with h | h
      · simp at h
      · exact splitOnNl_no_nl a x hx h
    · subst h
      intro hmem
      rcases List.mem_cons.mp hmem with h | h
      · simp at h
      · exact splitOnNl_no_nl b x hx h
    · rcases h with h | h
      · simp [h]
      · simp at h
  have hsplit : splitOnNl (joinNl L) = L := splitOnNl_joinNl L (by rw [hL]; simp) hmem
  rw [hsplit, hL]
  simp

/-- C4: Diff formats the edit script as unified-diff text, drops exactly
the first three lines (the two file-identity lines and the hunk header)
before returning, and when the formatted output has fewer than three
lines — the no-edit case — it returns an empty result rather than
erroring. -/
theorem c4_diff_drops_header (lhss rhss : List Char) :
    ((splitOnNl (unifiedChars lhss rhss)).length < 3 → diffBody lhss rhss = []) ∧
    (3 ≤ (splitOnNl (unifiedChars lhss rhss)).length →
      diffBody lhss rhss = joinNl ((splitOnNl (unifiedChars lhss rhss)).drop 3) ∧
      ∃ h3 rest, splitOnNl (unifiedChars lhss rhss) =
        "--- expected.txt".data :: "+++ actual.txt".data :: h3 :: rest ∧
        diffBody lhss rhss = joinNl rest) ∧
    (lhss = rhss → (splitOnNl (unifiedChars lhss rhss)).length < 3) := by
  refine ⟨?_, ?_, ?_⟩
  · intro h
    rw [diffBody, if_pos h]
  · intro h
    have hne : ¬(lhss = rhss) := by
      intro he
      subst he
      rw [unifiedChars, computeEdits, if_pos rfl] at h
      simp [splitOnNl] at h
    constructor
    · rw [diffBody, if_neg (by omega)]
    · refine ⟨_, _, splitOnNl_unifiedChars hne, ?_⟩
      rw [diffBody, if_neg (by omega), splitOnNl_unifiedChars hne]
      simp
  · intro h
    subst h
    rw [unifiedChars, computeEdits, if_pos rfl]
    simp [splitOnNl]

/-- C4 witness: at equal inputs the formatted output has a single line
and the diff body is empty; at distinct inputs the body is the join of
the lines after the dropped three-line header. -/
theorem c4_witness :
    ((splitOnNl (unifiedChars ("x".data) ("x".data))).length < 3 →
      diffBody ("x".data) ("x".data) = []) ∧
    (splitOnNl (unifiedChars ("x".data) ("x".data))).length < 3 ∧
    diffBody ("x".data) ("x".data) = [] :=
  ⟨(c4_diff_drops_header ("x".data) ("x".data)).1,
    (c4_diff_drops_header ("x".data) ("x".data)).2.2 rfl,
    (c4_diff_drops_header ("x".data) ("x".data)).1
      ((c4_diff_drops_header ("x".data) ("x".data)).2.2 rfl)⟩


/-! ### The containment diagnostic caret line -/

theorem isPref_length_le : ∀ {old s : List Char}, isPref old s = true → old.length ≤ s.length
  | [], _, _ => by simp
  | _ :: _, [], h => by simp [isPref] at h
  | p :: ps, c :: cs, h => by
    rw [isPref, Bool.and_eq_true] at h
    have := isPref_length_le h.2
    simp
    omega

theorem replaceAllAux_map_blank (old : List Char) (_hne : old ≠ []) :
    ∀ (fuel : Nat) (s : List Char),
    (replaceAllAux old (List.replicate old.length '^') fuel s).map
        (fun rn => if rn = '^' then '^' else ' ') =
      caretMaskAllAux old fuel s := by
  intro fuel
  induction fuel with
  | zero =>
    intro s
    cases s with
    | nil => rfl
    | cons c cs => rfl
  | succ fuel ih =>
    intro s
    cases s with
    | nil => rfl
    | cons c cs =>
      rw [replaceAllAux, caretMaskAllAux]
      by_cases hp : isPref old (c :: cs) = true
      · rw [if_pos hp, if_pos hp, List.map_append, ih]
        congr 1
        simp [List.map_replicate]
      · rw [if_neg hp, if_neg hp, List.map_cons, ih]

theorem replaceAllAux_length (old : List Char) (_hne : old ≠ []) :
    ∀ (fuel : Nat) (s : List Char),
    (replaceAllAux old (List.replicate old.length '^') fuel s).length = s.length := by
  intro fuel
  induction fuel with
  | zero =>
    intro s
    cases s with
    | nil => rfl
    | cons c cs => rfl
  | succ fuel ih =>
    intro s
    cases s with
    | nil => rfl
    | cons c cs =>
      rw [replaceAllAux]
      by_cases hp : isPref old (c :: cs) = true
      · rw [if_pos hp]
        have hle := isPref_length_le hp
        rw [List.length_append, List.length_replicate, ih, List.length_drop]
        simp at hle ⊢
        omega
      · rw [if_neg hp]
        simp [ih]

/-- C5 (counterexample): the claim as stated fails — with haystack
"abab" and needle "ab" the marker line carries carets under both
occurrences, not only under the first occurrence region. -/
theorem c5_counterexample :
    (needlePosition "abab" "ab").2.2 = (" ^^^^ ").data ∧
    ¬((needlePosition "abab" "ab").2.2 =
      caretMaskFirst (needlePosition "abab" "ab").1 (needlePosition "abab" "ab").2.1) := by
  constructor
  · rfl
  · decide

/-- C5 (amended): the marker line has the same character length as the
quoted haystack, and it is exactly the caret mask that puts a caret run
under every leftmost non-overlapping occurrence of the quoted needle,
keeps literal caret characters of the quoted haystack, and blanks every
other position to a space. -/
theorem c5_caret_mask (haystack needle : String) :
    (needlePosition haystack needle).2.2.length =
      (needlePosition haystack needle).1.length ∧
    (needlePosition haystack needle).2.2 =
      caretMaskAll (needlePosition haystack needle).1
        (needlePosition haystack needle).2.1 := by
  rw [needlePosition]
  simp only []
  set qn := ((quoteChars needle.data).drop 1).take ((quoteChars needle.data).length - 2)
    with hqn
  set qh := quoteChars haystack.data with hqh
  by_cases hempty : qn.isEmpty = true
  · have hqnn : qn = [] := by
      rwa [List.isEmpty_iff] at hempty
    constructor
    · rw [replaceAll, hqnn]
      simp
    · rw [replaceAll, hqnn, caretMaskAll]
      simp
  · have hqnn : qn ≠ [] := by
      intro h
      rw [h] at hempty
      simp at hempty
    constructor
    · rw [replaceAll, if_neg (by simpa using hempty)]
      rw [List.length_map, replaceAllAux_length qn hqnn]
    · rw [replaceAll, if_neg (by simpa using hempty), caretMaskAll,
        if_neg (by simpa using hempty)]
      exact replaceAllAux_map_blank qn hqnn (qh.length + 1) qh


/-! ### The zero-value relaxation -/

theorem slice_renders_differ (ty : List Char) :
    ¬(reprString (GoValue.slice ty false GoList.nil) (expandCompareOptions []) =
      reprString (GoValue.slice ty true GoList.nil) (expandCompareOptions [])) := by
  intro h
  rw [reprString, reprString] at h
  rw [show normalize (hiddenOf (expandCompareOptions [])) (omitOf (expandCompareOptions []))
      (GoValue.slice ty false GoList.nil) =
      GoValue.slice ty false GoList.nil from rfl] at h
  rw [show normalize (hiddenOf (expandCompareOptions [])) (omitOf (expandCompareOptions []))
      (GoValue.slice ty true GoList.nil) =
      GoValue.slice ty true GoList.nil from rfl] at h
  rw [render, render] at h
  simp only [List.append_assoc, List.append_right_inj] at h
  rw [show renderL GoList.nil = [] from rfl] at h
  simp [obr] at h

/-- C7: the zero and not-zero predicates treat an empty slice, mapping
or array as the zero value — Zero passes and NotZero fails on them —
even though the raw equal primitive judges the empty slice and the nil
slice unequal; the relaxation is layered on the predicates, not part of
equal itself. -/
theorem c7_zero_relaxation (ty kt vt : List Char) :
    zeroPasses (GoValue.slice ty false GoList.nil) (GoValue.slice ty true GoList.nil) = true ∧
    zeroPasses (GoValue.mapv kt vt false GoPairs.nil)
      (GoValue.mapv kt vt true GoPairs.nil) = true ∧
    zeroPasses (GoValue.array ty GoList.nil) (GoValue.array ty GoList.nil) = true ∧
    notZeroPasses (GoValue.slice ty false GoList.nil)
      (GoValue.slice ty true GoList.nil) = false ∧
    objectsAreEqual (GoValue.slice ty false GoList.nil)
      (GoValue.slice ty true GoList.nil) [] = false := by
  have hraw : objectsAreEqual (GoValue.slice ty false GoList.nil)
      (GoValue.slice ty true GoList.nil) [] = false := by
    rw [objectsAreEqual_generic []
      (show isNilValue (GoValue.slice ty false GoList.nil) = false from rfl)
      (show isNilValue (GoValue.slice ty true GoList.nil) = false from rfl)
      (by simp [isBytes]) (by simp [isStr])]
    simp only [beq_eq_false_iff_ne, ne_eq]
    exact slice_renders_differ ty
  refine ⟨?_, ?_, ?_, ?_, hraw⟩
  · rw [zeroPasses]
    simp [isLenKind, lenOf, lenL]
  · rw [zeroPasses]
    simp [isLenKind, lenOf, lenP]
  · rw [zeroPasses]
    simp [isLenKind, lenOf, lenL]
  · rw [notZeroPasses]
    simp [isLenKind, lenOf, lenL]

/-! ### Message formatting and option extraction -/

/-- C8: when the variadic message list is non-empty and its first
argument is not a format string, the formatter signals an unrecoverable
fault (modelled as none, the panic) rather than an ordinary assertion
failure; with an empty list the default message is returned without
fault. -/
theorem c8_format_msg_panics (dflt : String) (a : Arg) (rest : List Arg)
    (h : ∀ s, a ≠ Arg.val (GoValue.str s)) :
    formatMsgAndArgs dflt (a :: rest) = none ∧
    formatMsgAndArgs dflt [] = some dflt := by
  refine ⟨?_, rfl⟩
  cases a with
  | opt o => rfl
  | val v =>
    cases v with
    | str s => exact absurd rfl (h s)
    | nil => rfl
    | bytes d => rfl
    | int n => rfl
    | strukt name f => rfl
    | slice t i es => rfl
    | array t es => rfl
    | mapv k v i ps => rfl

/-- C8 witness: an integer first message argument panics; the empty
list gives the default. -/
theorem c8_witness :
    (∀ s, Arg.val (GoValue.int 123) ≠ Arg.val (GoValue.str s)) ∧
    formatMsgAndArgs "default" [Arg.val (GoValue.int 123)] = none ∧
    formatMsgAndArgs "default" [] = some "default" := by
  have h : ∀ s, Arg.val (GoValue.int 123) ≠ Arg.val (GoValue.str s) := by
    intro s he
    injection he with h2
    cases h2
  exact ⟨h, c8_format_msg_panics "default" (Arg.val (GoValue.int 123)) [] h⟩

theorem extract_eq_filter (args : List Arg) :
    extractCompareOptions args = (args.filter isMsgArg, args.filterMap getOpt) := by
  induction args with
  | nil => rfl
  | cons a rest ih =>
    cases a with
    | opt o => simp [extractCompareOptions, ih, List.filter_cons, isMsgArg, getOpt]
    | val v => simp [extractCompareOptions, ih, List.filter_cons, isMsgArg, getOpt]

theorem extract_moved_options (args : List Arg) :
    extractCompareOptions (args.filter isMsgArg ++ (args.filterMap getOpt).map Arg.opt) =
      extractCompareOptions args := by
  rw [extract_eq_filter, extract_eq_filter]
  congr 1
  · rw [List.filter_append]
    have h1 : (args.filter isMsgArg).filter isMsgArg = args.filter isMsgArg := by
      rw [List.filter_filter]
      simp
    have h2 : ((args.filterMap getOpt).map Arg.opt).filter isMsgArg = [] := by
      rw [List.filter_eq_nil_iff]
      intro x hx
      simp only [List.mem_map] at hx
      obtain ⟨o, ho, rfl⟩ := hx
      simp [isMsgArg]
    rw [h1, h2, List.append_nil]
  · rw [List.filterMap_append]
    have h1 : (args.filter isMsgArg).filterMap getOpt = [] := by
      rw [List.filterMap_eq_nil_iff]
      intro x hx
      have := List.of_mem_filter hx
      cases x with
      | opt o => simp [isMsgArg] at this
      | val v => rfl
    have h2 : ((args.filterMap getOpt).map Arg.opt).filterMap getOpt =
        args.filterMap getOpt := by
      generalize args.filterMap getOpt = l
      induction l with
      | nil => rfl
      | cons o rest ih => simp [getOpt, ih]
    rw [h1, h2, List.nil_append]

/-- C10: Equal and NotEqual separate their variadic tail by dynamic
type, not by position — the extraction returns every comparison option
wherever it sits and the remaining message arguments in original order,
and moving all options to the end of the argument list changes neither
wrapper's outcome. -/
theorem c10_options_by_type (e a : GoValue) (args : List Arg) :
    extractCompareOptions args = (args.filter isMsgArg, args.filterMap getOpt) ∧
    EqualA e a args =
      EqualA e a (args.filter isMsgArg ++ (args.filterMap getOpt).map Arg.opt) ∧
    NotEqualA e a args =
      NotEqualA e a (args.filter isMsgArg ++ (args.filterMap getOpt).map Arg.opt) := by
  refine ⟨extract_eq_filter args, ?_, ?_⟩
  · rw [EqualA, EqualA, extract_moved_options]
  · rw [NotEqualA, NotEqualA, extract_moved_options]

end Assert
